import Mathlib

/-
Verification of FolderSync (`src/folderclone/core.py`).

The filesystem is modelled as a finite tree: a node is either a file (a
byte sequence) or a directory (a list of named children).  Paths are lists
of path components; byte values are modelled as `Nat` (file contents are
only ever compared for equality, so no arithmetic on bytes is involved).

`_sync_recursive`, `_files_are_equal` and `sync_directories` are shallow
embeddings of the Python functions of the same names.  `filecmp.dircmp`
(used by the code with its default arguments) is modelled by `dirListing`,
`left_only`, `right_only`, `common_files` and `common_dirs`: a listing is
the sorted list of child names (Python's `dircmp.phase0` sorts the result
of `os.listdir`), names on dircmp's default hide and ignore lists are
filtered out (`filecmp._filter`), and `os.path.normcase` is the identity
(POSIX).  Name sorting uses code-point order, as Python's `list.sort` on
`str` does.  Recursion is bounded by an explicit fuel parameter
instantiated with `nodeSize`, which always suffices; mutation is modelled
by returning the new destination tree, and each emitted output line is
modelled by a structured `SyncAction` value recording its classification and
the paths involved (dry-run and real-run lines of one action share one
classification, differing only in wording).
-/

inductive Node where
  | file (content : List Nat)
  | dir (children : List (String × Node))

abbrev Entries := List (String × Node)

mutual

def nodeSize : Node → Nat
  | .file _ => 1
  | .dir cs => 1 + entriesSize cs

def entriesSize : Entries → Nat
  | [] => 0
  | (_, t) :: rest => 1 + nodeSize t + entriesSize rest

end

/-- One output line of the program, reduced to its classification and the
paths it mentions: `copyDir`/`copyFile` for the `left_only` loop, `update`
for the `common_files` loop, `removeDir`/`removeFile` for the `right_only`
loop. -/
inductive SyncAction where
  | copyDir (src dst : List String)
  | copyFile (src dst : List String)
  | update (dst src : List String)
  | removeDir (dst : List String)
  | removeFile (dst : List String)
deriving DecidableEq

/-- Code-point comparison of names, as Python's `list.sort()` compares
`str` values (lexicographic on Unicode code points). -/
def nameLeAux : List Char → List Char → Bool
  | [], _ => true
  | _ :: _, [] => false
  | c :: cs, d :: ds =>
    if c.toNat < d.toNat then true
    else if d.toNat < c.toNat then false
    else nameLeAux cs ds

def nameLe (a b : String) : Bool :=
  nameLeAux a.data b.data

/-- `filecmp.dircmp`'s default `hide` list: `[os.curdir, os.pardir]`. -/
def hideNames : List String := [".", ".."]

/-- `filecmp.dircmp`'s default `ignore` list (`filecmp.DEFAULT_IGNORES`). -/
def defaultIgnores : List String :=
  ["RCS", "CVS", "tags", ".git", ".hg", ".bzr", "_darcs", "__pycache__"]

def bannedNames : List String := hideNames ++ defaultIgnores

/-- `dircmp.phase0`: `_filter(os.listdir(dir), self.hide + self.ignore)`
followed by `.sort()`. -/
def dirListing (cs : Entries) : List String :=
  List.insertionSort (fun a b => nameLe a b = true)
    ((cs.map Prod.fst).filter (fun n => !(bannedNames.contains n)))

/-- Name lookup in an association list (first match wins, as on a real
filesystem where names are unique). -/
def findName {α : Type} (ps : List (String × α)) (n : String) : Option α :=
  (ps.find? (fun p => p.1 == n)).map Prod.snd

/-- Looking a name up in a directory's children (the filesystem itself;
also used for association lists built during a sync step). -/
def lookupChild (cs : Entries) (n : String) : Option Node :=
  findName cs n

/-- `os.stat` type test `S_ISDIR` for the child named `n`. -/
def childIsDir (cs : Entries) (n : String) : Bool :=
  match lookupChild cs n with
  | some (Node.dir _) => true
  | _ => false

/-- `os.stat` type test `S_ISREG` for the child named `n`. -/
def childIsFile (cs : Entries) (n : String) : Bool :=
  match lookupChild cs n with
  | some (Node.file _) => true
  | _ => false

/-- `dircmp.left_only` (`phase1`, in the sorted order of the left list). -/
def left_only (scs dcs : Entries) : List String :=
  (dirListing scs).filter (fun n => !((dirListing dcs).contains n))

/-- `dircmp.right_only` (`phase1`, in the sorted order of the right list). -/
def right_only (scs dcs : Entries) : List String :=
  (dirListing dcs).filter (fun n => !((dirListing scs).contains n))

/-- `dircmp.common` (`phase1`). -/
def commonNames (scs dcs : Entries) : List String :=
  (dirListing scs).filter (fun n => (dirListing dcs).contains n)

/-- `dircmp.common_files` (`phase2`: common names that are regular files
on both sides).  A common name that is a file on one side and a directory
on the other lands in `dircmp.common_funny`, which `core.py` never reads. -/
def common_files (scs dcs : Entries) : List String :=
  (commonNames scs dcs).filter (fun n => childIsFile scs n && childIsFile dcs n)

/-- `dircmp.common_dirs` (`phase2`: common names that are directories on
both sides). -/
def common_dirs (scs dcs : Entries) : List String :=
  (commonNames scs dcs).filter (fun n => childIsDir scs n && childIsDir dcs n)

/-- The `chunk_size` of `_files_are_equal`. -/
def chunkSize : Nat := 8192

/-- The read-and-compare loop of `_files_are_equal`: read `chunk_size`
bytes from each file, return `False` on a mismatched pair of chunks,
`True` when both streams are exhausted.  The loop consumes at least one
byte of `f1` per iteration, so any fuel above `f1.length` is enough. -/
def chunkLoop : Nat → List Nat → List Nat → Bool
  | 0, _, _ => true
  | fuel + 1, f1, f2 =>
    let b1 := f1.take chunkSize
    let b2 := f2.take chunkSize
    if b1 ≠ b2 then false
    else if b1.isEmpty then true
    else chunkLoop fuel (f1.drop chunkSize) (f2.drop chunkSize)

/-- `_files_are_equal`: compare sizes first, then contents chunk by
chunk. -/
def _files_are_equal (f1 f2 : List Nat) : Bool :=
  if f1.length ≠ f2.length then false
  else chunkLoop (f1.length + 1) f1 f2

/-- The `shutil.copytree`/`shutil.copy2` calls of the `left_only` loop:
each source-only entry is added to the destination (a deep copy of the
source subtree). -/
def copyAdds (scs dcs : Entries) : Entries :=
  (left_only scs dcs).filterMap
    (fun n => (lookupChild scs n).map (fun sn => (n, sn)))

/-- The output lines of the `left_only` loop, classified by
`src_file.is_dir()`. -/
def copyActions (sp dp : List String) (scs dcs : Entries) : List SyncAction :=
  (left_only scs dcs).filterMap (fun n =>
    match lookupChild scs n with
    | some (Node.dir _) => some (SyncAction.copyDir (sp ++ [n]) (dp ++ [n]))
    | some (Node.file _) => some (SyncAction.copyFile (sp ++ [n]) (dp ++ [n]))
    | none => none)

/-- The output lines of the `common_files` loop: one `update` per common
file pair that `_files_are_equal` rejects. -/
def updateActions (sp dp : List String) (scs dcs : Entries) : List SyncAction :=
  (common_files scs dcs).filterMap (fun n =>
    match lookupChild scs n, lookupChild dcs n with
    | some (Node.file c1), some (Node.file c2) =>
      if _files_are_equal c1 c2 then none
      else some (SyncAction.update (dp ++ [n]) (sp ++ [n]))
    | _, _ => none)

/-- The output lines of the `right_only` loop, classified by
`dst_file.is_dir()`. -/
def removeActions (dp : List String) (scs dcs : Entries) : List SyncAction :=
  (right_only scs dcs).filterMap (fun n =>
    match lookupChild dcs n with
    | some (Node.dir _) => some (SyncAction.removeDir (dp ++ [n]))
    | some (Node.file _) => some (SyncAction.removeFile (dp ++ [n]))
    | none => none)

/-- Rewrite every child's value in place, keeping names and order (the
building block for the `shutil.copy2` overwrites of the `common_files`
loop and for writing back synchronised common subdirectories). -/
def mapVals (g : String → Node → Node) (d : Entries) : Entries :=
  d.map (fun p => (p.1, g p.1 p.2))

/-- The `shutil.copy2(src_file, dst_file)` overwrites of the
`common_files` loop: every common file that `_files_are_equal` rejects is
overwritten with the source file's bytes. -/
def applyUpdates (names : List String) (scs : Entries) (d : Entries) : Entries :=
  mapVals (fun n v =>
    if names.contains n then
      match lookupChild scs n, v with
      | some (Node.file c1), Node.file c2 =>
        if _files_are_equal c1 c2 then Node.file c2 else Node.file c1
      | _, _ => v
    else v) d

/-- The `rmtree`/`unlink` deletions of the `right_only` loop. -/
def applyRemovals (names : List String) (d : Entries) : Entries :=
  d.filter (fun p => !(names.contains p.1))

/-- Write the recursively synchronised subtrees back over the common
directories. -/
def applyRecs (rs : Entries) (d : Entries) : Entries :=
  mapVals (fun n v =>
    match lookupChild rs n with
    | some t => t
    | none => v) d

/-- The common directory pairs the `common_dirs` loop recurses into, each
name paired with its source and destination subdirectories. -/
def recPairs (scs dcs : Entries) : List (String × Node × Node) :=
  (common_dirs scs dcs).filterMap (fun n =>
    ((lookupChild scs n).bind (fun sn =>
      (lookupChild dcs n).map (fun dn => (sn, dn)))).map (fun q => (n, q)))

/-- The destination directory's children after one level of
synchronisation, given the results of recursing into the common
subdirectory pairs: the mutations of the four loops in program order
(`left_only` additions, `common_files` overwrites, `right_only`
deletions, `common_dirs` write-backs), each of the first three guarded by
`dry_run`. -/
def syncLevelChildren (recurse : String → Node → Node → Node)
    (dry : Bool) (scs dcs : Entries) : Entries :=
  let d1 := if dry then dcs else dcs ++ copyAdds scs dcs
  let d2 := if dry then d1 else applyUpdates (common_files scs dcs) scs d1
  let d3 := if dry then d2 else applyRemovals (right_only scs dcs) d2
  applyRecs ((recPairs scs dcs).map (fun q => (q.1, recurse q.1 q.2.1 q.2.2))) d3

/-- The output lines of one level of synchronisation, given the lines
emitted when recursing into the common subdirectory pairs, in program
order. -/
def syncLevelActs (recurse : String → Node → Node → List SyncAction)
    (sp dp : List String) (scs dcs : Entries) : List SyncAction :=
  copyActions sp dp scs dcs ++ updateActions sp dp scs dcs
    ++ removeActions dp scs dcs
    ++ ((recPairs scs dcs).map (fun q => recurse q.1 q.2.1 q.2.2)).flatten

/-- `_sync_recursive(src_path, dst_path, dry_run)`, with explicit fuel
bounding the recursion depth.  One level runs `dircmp`, then the four
loops in program order (`left_only`, `common_files`, `right_only`,
`common_dirs`); `dry_run` guards every mutation but no output line, and
the recursion into common subdirectories runs in both modes.  On
non-directory arguments (which the program never produces: the entry
point validates both roots and recursion only descends common directory
pairs) the model is a no-op. -/
def syncRecF : Nat → Bool → List String → List String → Node → Node → Node × List SyncAction
  | 0, _, _, _, _, dst => (dst, [])
  | fuel + 1, dry, sp, dp, src, dst =>
    match src, dst with
    | Node.dir scs, Node.dir dcs =>
      (Node.dir (syncLevelChildren
          (fun n sn dn => (syncRecF fuel dry (sp ++ [n]) (dp ++ [n]) sn dn).1)
          dry scs dcs),
        syncLevelActs
          (fun n sn dn => (syncRecF fuel dry (sp ++ [n]) (dp ++ [n]) sn dn).2)
          sp dp scs dcs)
    | _, d => (d, [])

/-- `_sync_recursive`, with the always-sufficient fuel `nodeSize src`:
the result is the synchronised destination tree paired with the emitted
action lines in program order. -/
def _sync_recursive (dry : Bool) (sp dp : List String) (src dst : Node) : Node × List SyncAction :=
  syncRecF (nodeSize src) dry sp dp src dst

/-- Resolve a path inside the filesystem tree. -/
def lookupPath : Node → List String → Option Node
  | t, [] => some t
  | Node.dir cs, n :: ps =>
    match lookupChild cs n with
    | some c => lookupPath c ps
    | none => none
  | Node.file _, _ :: _ => none

/-- Replace the subtree at a path (used to write the synchronised
destination tree back into the filesystem). -/
def setPath : Node → List String → Node → Node
  | _, [], t => t
  | Node.dir cs, n :: ps, t =>
    Node.dir (mapVals (fun m v => if m == n then setPath v ps t else v) cs)
  | Node.file c, _ :: _, _ => Node.file c

/-- `Path.is_dir()` for a path in the filesystem tree (`false` both for a
missing path and for a file). -/
def isDirAt (fs : Node) (p : List String) : Bool :=
  match lookupPath fs p with
  | some (Node.dir _) => true
  | _ => false

def renderPath (p : List String) : String :=
  "/" ++ String.intercalate "/" p

/-- `sync_directories(src, dst, dry_run)`: validate that both (resolved)
paths are directories, raising `ValueError` with a message naming the
offending path before anything else happens, then run `_sync_recursive`
and write the new destination tree back at the destination path.  Paths
are taken as already resolved (`Path.resolve` is OS-level symlink and
relative-component resolution, outside the tree model). -/
def sync_directories (fs : Node) (src dst : List String) (dry : Bool) :
    Except String (Node × List SyncAction) :=
  if isDirAt fs src = false then
    Except.error ("Source path " ++ renderPath src ++ " is not a directory.")
  else if isDirAt fs dst = false then
    Except.error ("Destination path " ++ renderPath dst ++ " is not a directory.")
  else
    match lookupPath fs src, lookupPath fs dst with
    | some s, some d =>
      let r := _sync_recursive dry src dst s d
      Except.ok (setPath fs dst r.1, r.2)
    | _, _ => Except.ok (fs, [])

/-- The destination path an action would mutate (for `copy*` the target
of the copy, for `update` the overwritten file, for `remove*` the deleted
entry). -/
def actionWrites : SyncAction → List String
  | SyncAction.copyDir _ d => d
  | SyncAction.copyFile _ d => d
  | SyncAction.update d _ => d
  | SyncAction.removeDir d => d
  | SyncAction.removeFile d => d

/-- `q` lies (weakly) below `p` in the tree of paths. -/
def pathExtends (p q : List String) : Prop :=
  ∃ r, q = p ++ r

/-- No duplicate names in a list (a directory on a real filesystem names
each child once). -/
def nodupNames : List String → Bool
  | [] => true
  | n :: rest => !(rest.contains n) && nodupNames rest

/-- Well-formedness of a tree as a filesystem snapshot: every directory
names its children without duplicates. -/
def wfF : Nat → Node → Bool
  | 0, _ => false
  | _ + 1, Node.file _ => true
  | fuel + 1, Node.dir cs =>
    nodupNames (cs.map Prod.fst) && cs.all (fun p => wfF fuel p.2)

def wfNode (t : Node) : Bool := wfF (nodeSize t) t

/-- No entry anywhere in the tree carries a name on `dircmp`'s default
hide or ignore lists. -/
def noBannedF : Nat → Node → Bool
  | 0, _ => false
  | _ + 1, Node.file _ => true
  | fuel + 1, Node.dir cs =>
    cs.all (fun p => !(bannedNames.contains p.1) && noBannedF fuel p.2)

def noBanned (t : Node) : Bool := noBannedF (nodeSize t) t

/-- No type-mismatched common entry at any level the synchronisation
reaches: every name present in both directories has the same kind on both
sides, recursively below common directories. -/
def compatF : Nat → Node → Node → Bool
  | 0, _, _ => false
  | _ + 1, Node.file _, _ => true
  | _ + 1, Node.dir _, Node.file _ => true
  | fuel + 1, Node.dir scs, Node.dir dcs =>
    scs.all (fun p =>
      match p.2, lookupChild dcs p.1 with
      | _, none => true
      | Node.file _, some (Node.file _) => true
      | Node.dir scs2, some (Node.dir dcs2) => compatF fuel (Node.dir scs2) (Node.dir dcs2)
      | _, _ => false)

def compat (s d : Node) : Bool := compatF (nodeSize s) s d

/-- Content-and-structure comparison of two trees: equal file bytes at
equal positions, equal child-name sets, recursively — the comparison the
specification's convergence property speaks about.  (Child order is
irrelevant: a directory is read as a name-to-child map.) -/
def treeEqbF : Nat → Node → Node → Bool
  | 0, _, _ => false
  | _ + 1, Node.file c1, Node.file c2 => c1 == c2
  | fuel + 1, Node.dir scs, Node.dir dcs =>
    (scs.all (fun p =>
      match lookupChild dcs p.1 with
      | some dn => treeEqbF fuel p.2 dn
      | none => false))
    && dcs.all (fun p => (lookupChild scs p.1).isSome)
  | _ + 1, _, _ => false

def treeEqb (a b : Node) : Bool := treeEqbF (nodeSize a) a b

/-- Code-point order on names is total. -/
theorem nameLeAux_total : ∀ (a b : List Char), nameLeAux a b = true ∨ nameLeAux b a = true := by
  intro a
  induction a with
  | nil => intro b; left; rfl
  | cons c cs ih =>
    intro b
    cases b with
    | nil => right; rfl
    | cons d ds =>
      by_cases h1 : c.toNat < d.toNat
      · left; simp [nameLeAux, h1]
      · by_cases h2 : d.toNat < c.toNat
        · right; simp [nameLeAux, h1, h2]
        · rcases ih ds with h | h
          · left; simp [nameLeAux, h1, h2, h]
          · right; simp [nameLeAux, h1, h2, h]

/-- Code-point order on names is transitive. -/
theorem nameLeAux_trans : ∀ {a b c : List Char},
    nameLeAux a b = true → nameLeAux b c = true → nameLeAux a c = true := by
  intro a
  induction a with
  | nil => intro b c _ _; rfl
  | cons x xs ih =>
    intro b c hab hbc
    cases b with
    | nil => simp [nameLeAux] at hab
    | cons y ys =>
      cases c with
      | nil => simp [nameLeAux] at hbc
      | cons z zs =>
        simp only [nameLeAux] at hab hbc ⊢
        by_cases h1 : x.toNat < y.toNat
        · by_cases h2 : y.toNat < z.toNat
          · have : x.toNat < z.toNat := Nat.lt_trans h1 h2
            simp [this]
          · simp only [h2, if_false] at hbc
            by_cases h3 : z.toNat < y.toNat
            · simp [h3] at hbc
            · have hyz : y.toNat = z.toNat := Nat.le_antisymm (Nat.le_of_not_lt h3) (Nat.le_of_not_lt h2)
              have : x.toNat < z.toNat := hyz ▸ h1
              simp [this]
        · simp only [h1, if_false] at hab
          by_cases h2 : y.toNat < x.toNat
          · simp [h2] at hab
          · have hxy : x.toNat = y.toNat := Nat.le_antisymm (Nat.le_of_not_lt h2) (Nat.le_of_not_lt h1)
            by_cases h3 : y.toNat < z.toNat
            · have : x.toNat < z.toNat := hxy ▸ h3
              simp [this]
            · simp only [h3, if_false] at hbc
              by_cases h4 : z.toNat < y.toNat
              · simp [h4] at hbc
              · have hyz : y.toNat = z.toNat := Nat.le_antisymm (Nat.le_of_not_lt h4) (Nat.le_of_not_lt h3)
                have hxz : x.toNat = z.toNat := hxy.trans hyz
                have n1 : ¬ x.toNat < z.toNat := by omega
                have n2 : ¬ z.toNat < x.toNat := by omega
                simp only [n1, n2, if_false]
                exact ih (by simpa [h1, h2] using hab) (by simpa [h3, h4] using hbc)

/-- Code-point order on names is antisymmetric. -/
theorem nameLeAux_antisymm : ∀ {a b : List Char},
    nameLeAux a b = true → nameLeAux b a = true → a = b := by
  intro a
  induction a with
  | nil =>
    intro b _ hba
    cases b with
    | nil => rfl
    | cons d ds => simp [nameLeAux] at hba
  | cons c cs ih =>
    intro b hab hba
    cases b with
    | nil => simp [nameLeAux] at hab
    | cons d ds =>
      simp only [nameLeAux] at hab hba
      by_cases h1 : c.toNat < d.toNat
      · have : ¬ d.toNat < c.toNat := by omega
        simp [this, h1] at hba
      · by_cases h2 : d.toNat < c.toNat
        · simp [h1, h2] at hab
        · have hcd : c = d := by
            apply Char.eq_of_val_eq
            exact UInt32.toNat.inj (Nat.le_antisymm (Nat.le_of_not_lt h2) (Nat.le_of_not_lt h1))
          have := ih (by simpa [h1, h2] using hab) (by simpa [h1, h2] using hba)
          rw [hcd, this]

theorem nameLe_total (a b : String) : nameLe a b = true ∨ nameLe b a = true :=
  nameLeAux_total a.data b.data

theorem nameLe_trans {a b c : String} (h1 : nameLe a b = true) (h2 : nameLe b c = true) :
    nameLe a c = true :=
  nameLeAux_trans h1 h2

theorem nameLe_antisymm {a b : String} (h1 : nameLe a b = true) (h2 : nameLe b a = true) :
    a = b :=
  String.ext (nameLeAux_antisymm h1 h2)

/-- Membership in a `dircmp` listing: exactly the child names not on the
default hide and ignore lists. -/
theorem mem_dirListing {cs : Entries} {n : String} :
    n ∈ dirListing cs ↔ n ∈ cs.map Prod.fst ∧ n ∉ bannedNames := by
  unfold dirListing
  rw [(List.perm_insertionSort _ _).mem_iff, List.mem_filter]
  simp [List.elem_iff]

/-- A `dircmp` listing is sorted in code-point order. -/
theorem dirListing_sorted (cs : Entries) :
    List.Sorted (fun a b => nameLe a b = true) (dirListing cs) := by
  haveI : IsTotal String (fun a b => nameLe a b = true) := ⟨nameLe_total⟩
  haveI : IsTrans String (fun a b => nameLe a b = true) := ⟨fun _ _ _ => nameLe_trans⟩
  exact List.sorted_insertionSort _ _

/-- A `dircmp` listing of a well-formed directory has no duplicates. -/
theorem dirListing_nodup {cs : Entries} (h : (cs.map Prod.fst).Nodup) :
    (dirListing cs).Nodup :=
  (List.perm_insertionSort _ _).symm.nodup (h.filter _)

/-- Two child lists naming the same entries (in any order) produce the
same `dircmp` listing. -/
theorem dirListing_perm_inv {cs cs' : Entries}
    (h : (cs.map Prod.fst).Perm (cs'.map Prod.fst)) : dirListing cs = dirListing cs' := by
  haveI : IsTotal String (fun a b => nameLe a b = true) := ⟨nameLe_total⟩
  haveI : IsTrans String (fun a b => nameLe a b = true) := ⟨fun _ _ _ => nameLe_trans⟩
  haveI : IsAntisymm String (fun a b => nameLe a b = true) := ⟨fun _ _ => nameLe_antisymm⟩
  refine List.eq_of_perm_of_sorted ?_ (dirListing_sorted _) (dirListing_sorted _)
  exact ((List.perm_insertionSort _ _).trans (h.filter _)).trans (List.perm_insertionSort _ _).symm

theorem findName_eq_none {α : Type} {ps : List (String × α)} {n : String} :
    findName ps n = none ↔ n ∉ ps.map Prod.fst := by
  unfold findName
  rw [Option.map_eq_none', List.find?_eq_none]
  simp only [List.mem_map]
  constructor
  · rintro h ⟨p, hp, rfl⟩
    exact h p hp (by simp)
  · intro h p hp hbeq
    exact h ⟨p, hp, by simpa using hbeq⟩

theorem findName_isSome {α : Type} {ps : List (String × α)} {n : String} :
    (findName ps n).isSome = true ↔ n ∈ ps.map Prod.fst := by
  cases h : findName ps n with
  | none => simpa [h] using findName_eq_none.mp h
  | some t =>
    simp only [Option.isSome_some, true_iff]
    by_contra hmem
    rw [← findName_eq_none (n := n)] at hmem
    rw [h] at hmem
    exact Option.noConfusion hmem

theorem findName_mem {α : Type} {ps : List (String × α)} {n : String} {t : α}
    (h : findName ps n = some t) : (n, t) ∈ ps := by
  unfold findName at h
  cases hf : ps.find? (fun p => p.1 == n) with
  | none => rw [hf] at h; exact Option.noConfusion h
  | some p =>
    rw [hf] at h
    have hp1 : p.1 = n := by simpa using List.find?_some hf
    have hp2 : p.2 = t := by simpa using h
    have := List.mem_of_find?_eq_some hf
    rwa [show (n, t) = p from by rw [← hp1, ← hp2]]

theorem findName_append {α : Type} (as bs : List (String × α)) (n : String) :
    findName (as ++ bs) n = (findName as n).or (findName bs n) := by
  unfold findName
  rw [List.find?_append]
  cases as.find? (fun p => p.1 == n) <;> rfl

theorem findName_mapPairs {α β : Type} (ps : List (String × α)) (f : String → α → β)
    (n : String) :
    findName (ps.map (fun q => (q.1, f q.1 q.2))) n = (findName ps n).map (f n) := by
  induction ps with
  | nil => rfl
  | cons p ps ih =>
    unfold findName at ih ⊢
    rw [List.map_cons]
    by_cases hb : p.1 = n
    · subst hb
      rw [List.find?_cons_of_pos _ (by simp), List.find?_cons_of_pos _ (by simp)]
      rfl
    · rw [List.find?_cons_of_neg _ (by simpa using hb),
        List.find?_cons_of_neg _ (by simpa using hb)]
      exact ih

theorem findName_filterMap {α : Type} (l : List String) (h : String → Option α)
    (n : String) :
    findName (l.filterMap (fun m => (h m).map (fun y => (m, y)))) n
      = if n ∈ l then h n else none := by
  induction l with
  | nil => simp [findName]
  | cons m ms ih =>
    rw [List.filterMap_cons]
    unfold findName at ih ⊢
    by_cases hnm : n = m
    · subst hnm
      cases hm : h n with
      | none =>
        simp only [Option.map_none']
        rw [ih]
        by_cases hr : n ∈ ms
        · simp [hr, hm]
        · simp [hr]
      | some y =>
        simp only [Option.map_some']
        rw [List.find?_cons_of_pos _ (by simp)]
        simp [hm]
    · cases hm : h m with
      | none =>
        simp only [Option.map_none']
        rw [ih]
        simp [List.mem_cons, hnm]
      | some y =>
        simp only [Option.map_some']
        rw [List.find?_cons_of_neg _
          (by simp only [beq_iff_eq]; exact fun hc => hnm hc.symm)]
        rw [ih]
        simp [List.mem_cons, hnm]

theorem nodeSize_pos (t : Node) : 1 ≤ nodeSize t := by
  cases t <;> simp [nodeSize]

theorem nodeSize_mem_lt {p : String × Node} {cs : Entries} (h : p ∈ cs) :
    nodeSize p.2 < entriesSize cs := by
  induction cs with
  | nil => exact absurd h (List.not_mem_nil p)
  | cons q qs ih =>
    obtain ⟨m, u⟩ := q
    rcases List.mem_cons.mp h with rfl | hmem
    · simp only [entriesSize]
      omega
    · have := ih hmem
      simp only [entriesSize]
      omega

theorem nodeSize_lookup {cs : Entries} {n : String} {t : Node}
    (h : lookupChild cs n = some t) : nodeSize t < nodeSize (Node.dir cs) := by
  have h2 : nodeSize t < entriesSize cs := by
    simpa using nodeSize_mem_lt (findName_mem h)
  simp only [nodeSize]
  omega

theorem findName_of_not_mem {α : Type} {ps : List (String × α)} {n : String}
    (h : n ∉ ps.map Prod.fst) : findName ps n = none :=
  findName_eq_none.mpr h

theorem childIsFile_iff {cs : Entries} {n : String} :
    childIsFile cs n = true ↔ ∃ c, lookupChild cs n = some (Node.file c) := by
  unfold childIsFile
  cases h : lookupChild cs n with
  | none => simp
  | some t => cases t <;> simp

theorem childIsDir_iff {cs : Entries} {n : String} :
    childIsDir cs n = true ↔ ∃ cs2, lookupChild cs n = some (Node.dir cs2) := by
  unfold childIsDir
  cases h : lookupChild cs n with
  | none => simp
  | some t => cases t <;> simp

theorem mem_of_childIsFile {cs : Entries} {n : String} (h : childIsFile cs n = true) :
    n ∈ cs.map Prod.fst := by
  obtain ⟨c, hc⟩ := childIsFile_iff.mp h
  exact findName_isSome.mp (by rw [show lookupChild cs n = findName cs n from rfl] at hc; simp [hc])

theorem mem_of_childIsDir {cs : Entries} {n : String} (h : childIsDir cs n = true) :
    n ∈ cs.map Prod.fst := by
  obtain ⟨cs2, hc⟩ := childIsDir_iff.mp h
  exact findName_isSome.mp (by rw [show lookupChild cs n = findName cs n from rfl] at hc; simp [hc])

theorem not_childIsDir_of_file {cs : Entries} {n : String} {c : List Nat}
    (h : lookupChild cs n = some (Node.file c)) : childIsDir cs n = false := by
  unfold childIsDir
  rw [h]

theorem not_childIsFile_of_dir {cs : Entries} {n : String} {cs2 : Entries}
    (h : lookupChild cs n = some (Node.dir cs2)) : childIsFile cs n = false := by
  unfold childIsFile
  rw [h]

theorem mem_left_only {scs dcs : Entries} {n : String} :
    n ∈ left_only scs dcs ↔
      n ∈ scs.map Prod.fst ∧ n ∉ bannedNames ∧ n ∉ dcs.map Prod.fst := by
  unfold left_only
  rw [List.mem_filter, mem_dirListing]
  have hcon : ((!((dirListing dcs).contains n)) = true) ↔ n ∉ dirListing dcs := by
    simp [List.elem_iff]
  rw [hcon, mem_dirListing]
  constructor
  · rintro ⟨⟨h1, h2⟩, h3⟩
    exact ⟨h1, h2, fun hd => h3 ⟨hd, h2⟩⟩
  · rintro ⟨h1, h2, h3⟩
    exact ⟨⟨h1, h2⟩, fun hc => h3 hc.1⟩

theorem mem_right_only {scs dcs : Entries} {n : String} :
    n ∈ right_only scs dcs ↔
      n ∈ dcs.map Prod.fst ∧ n ∉ bannedNames ∧ n ∉ scs.map Prod.fst := by
  unfold right_only
  rw [List.mem_filter, mem_dirListing]
  have hcon : ((!((dirListing scs).contains n)) = true) ↔ n ∉ dirListing scs := by
    simp [List.elem_iff]
  rw [hcon, mem_dirListing]
  constructor
  · rintro ⟨⟨h1, h2⟩, h3⟩
    exact ⟨h1, h2, fun hd => h3 ⟨hd, h2⟩⟩
  · rintro ⟨h1, h2, h3⟩
    exact ⟨⟨h1, h2⟩, fun hc => h3 hc.1⟩

theorem mem_commonNames {scs dcs : Entries} {n : String} :
    n ∈ commonNames scs dcs ↔
      n ∈ scs.map Prod.fst ∧ n ∈ dcs.map Prod.fst ∧ n ∉ bannedNames := by
  unfold commonNames
  rw [List.mem_filter, mem_dirListing]
  have hcon : (((dirListing dcs).contains n) = true) ↔ n ∈ dirListing dcs :=
    List.elem_iff
  rw [hcon, mem_dirListing]
  constructor
  · rintro ⟨⟨h1, h2⟩, h3, _⟩
    exact ⟨h1, h3, h2⟩
  · rintro ⟨h1, h2, h3⟩
    exact ⟨⟨h1, h3⟩, h2, h3⟩

theorem mem_common_files {scs dcs : Entries} {n : String} :
    n ∈ common_files scs dcs ↔
      n ∉ bannedNames ∧ childIsFile scs n = true ∧ childIsFile dcs n = true := by
  unfold common_files
  rw [List.mem_filter, mem_commonNames]
  constructor
  · rintro ⟨⟨_, _, h3⟩, h4⟩
    rcases Bool.and_eq_true_iff.mp h4 with ⟨hf1, hf2⟩
    exact ⟨h3, hf1, hf2⟩
  · rintro ⟨h1, h2, h3⟩
    exact ⟨⟨mem_of_childIsFile h2, mem_of_childIsFile h3, h1⟩,
      Bool.and_eq_true_iff.mpr ⟨h2, h3⟩⟩

theorem mem_common_dirs {scs dcs : Entries} {n : String} :
    n ∈ common_dirs scs dcs ↔
      n ∉ bannedNames ∧ childIsDir scs n = true ∧ childIsDir dcs n = true := by
  unfold common_dirs
  rw [List.mem_filter, mem_commonNames]
  constructor
  · rintro ⟨⟨_, _, h3⟩, h4⟩
    rcases Bool.and_eq_true_iff.mp h4 with ⟨hf1, hf2⟩
    exact ⟨h3, hf1, hf2⟩
  · rintro ⟨h1, h2, h3⟩
    exact ⟨⟨mem_of_childIsDir h2, mem_of_childIsDir h3, h1⟩,
      Bool.and_eq_true_iff.mpr ⟨h2, h3⟩⟩

theorem nodupNames_iff {l : List String} : nodupNames l = true ↔ l.Nodup := by
  induction l with
  | nil => simp [nodupNames]
  | cons n rest ih =>
    show (!(rest.contains n) && nodupNames rest) = true ↔ (n :: rest).Nodup
    rw [List.nodup_cons, ← ih]
    simp [List.elem_iff]

theorem chunkSize_pos : 0 < chunkSize := by decide

/-- The chunked comparison loop with enough fuel decides equality of
equal-length byte lists. -/
theorem chunkLoop_eq : ∀ (fuel : Nat) (f1 f2 : List Nat), f1.length = f2.length →
    f1.length < fuel → (chunkLoop fuel f1 f2 = true ↔ f1 = f2) := by
  intro fuel
  induction fuel with
  | zero => intro f1 f2 _ h; omega
  | succ fuel ih =>
    intro f1 f2 hlen hf
    simp only [chunkLoop]
    by_cases hb : f1.take chunkSize = f2.take chunkSize
    · rw [if_neg (not_not_intro hb)]
      by_cases hemp : f1.take chunkSize = []
      · have hf1 : f1 = [] := by
          rcases List.take_eq_nil_iff.mp hemp with h | h
          · exact absurd h (Nat.pos_iff_ne_zero.mp chunkSize_pos)
          · exact h
        have hf2 : f2 = [] := by
          apply List.length_eq_zero.mp
          rw [← hlen, hf1]
          rfl
        subst hf1; subst hf2
        simp
      · rw [if_neg (by simpa using hemp)]
        have hne : f1 ≠ [] := fun h => hemp (by rw [h]; rfl)
        have hpos : 1 ≤ f1.length := by
          cases f1 with
          | nil => exact absurd rfl hne
          | cons a as => simp
        have hlen2 : (f1.drop chunkSize).length = (f2.drop chunkSize).length := by
          simp [hlen]
        have hbound : (f1.drop chunkSize).length < fuel := by
          simp only [List.length_drop]
          have := chunkSize_pos
          omega
        rw [ih _ _ hlen2 hbound]
        constructor
        · intro h
          conv_lhs => rw [← List.take_append_drop chunkSize f1]
          conv_rhs => rw [← List.take_append_drop chunkSize f2]
          rw [hb, h]
        · intro h
          rw [h]
    · rw [if_pos hb]
      simp only [Bool.false_eq_true, false_iff]
      exact fun he => hb (by rw [he])

/-- `_files_are_equal` decides byte-for-byte equality of the two files. -/
theorem files_are_equal_iff (f1 f2 : List Nat) :
    _files_are_equal f1 f2 = true ↔ f1 = f2 := by
  unfold _files_are_equal
  by_cases h : f1.length = f2.length
  · rw [if_neg (not_not_intro h)]
    exact chunkLoop_eq _ _ _ h (Nat.lt_succ_self _)
  · rw [if_pos h]
    simp only [Bool.false_eq_true, false_iff]
    exact fun he => h (by rw [he])

theorem files_are_equal_refl (c : List Nat) : _files_are_equal c c = true :=
  (files_are_equal_iff c c).mpr rfl

theorem all_congr_mem {α : Type} {l : List α} {p q : α → Bool}
    (h : ∀ a ∈ l, p a = q a) : l.all p = l.all q := by
  induction l with
  | nil => rfl
  | cons a as ih =>
    simp only [List.all_cons]
    rw [h a (List.mem_cons_self a as), ih (fun b hb => h b (List.mem_cons.mpr (Or.inr hb)))]

theorem contains_false {l : List String} {n : String} (h : n ∉ l) :
    l.contains n = false := by
  rw [← Bool.not_eq_true]
  exact fun hc => h (List.elem_iff.mp hc)

theorem contains_true {l : List String} {n : String} (h : n ∈ l) :
    l.contains n = true :=
  List.elem_iff.mpr h

theorem findName_of_mem_nodup {α : Type} {ps : List (String × α)}
    (hnd : (ps.map Prod.fst).Nodup) {p : String × α} (hp : p ∈ ps) :
    findName ps p.1 = some p.2 := by
  induction ps with
  | nil => exact absurd hp (List.not_mem_nil p)
  | cons q qs ih =>
    rw [List.map_cons, List.nodup_cons] at hnd
    rcases List.mem_cons.mp hp with rfl | hmem
    · unfold findName
      rw [List.find?_cons_of_pos _ (by simp)]
      rfl
    · have hne : q.1 ≠ p.1 := by
        intro he
        exact hnd.1 (he ▸ List.mem_map.mpr ⟨p, hmem, rfl⟩)
      unfold findName
      rw [List.find?_cons_of_neg _ (by simpa using hne)]
      exact ih hnd.2 hmem

theorem findName_mapVals (g : String → Node → Node) (d : Entries) (n : String) :
    findName (mapVals g d) n = (findName d n).map (g n) :=
  findName_mapPairs d g n

theorem findName_filter {α : Type} (q : String → Bool) (ps : List (String × α))
    (n : String) :
    findName (ps.filter (fun p => q p.1)) n = if q n then findName ps n else none := by
  induction ps with
  | nil => simp [findName]
  | cons p ps ih =>
    rw [List.filter_cons]
    by_cases hq : q p.1 = true
    · rw [if_pos (by simpa using hq)]
      by_cases hb : p.1 = n
      · subst hb
        unfold findName
        rw [List.find?_cons_of_pos _ (by simp), List.find?_cons_of_pos _ (by simp), if_pos hq]
      · unfold findName at ih ⊢
        rw [List.find?_cons_of_neg _ (by simpa using hb), ih]
        by_cases hn : q n = true
        · rw [if_pos hn, if_pos hn, List.find?_cons_of_neg _ (by simpa using hb)]
        · rw [if_neg hn, if_neg hn]
    · rw [if_neg (by simpa using hq)]
      by_cases hb : p.1 = n
      · subst hb
        rw [ih, if_neg (by simpa using hq)]
        by_cases hn : q p.1 = true
        · exact absurd hn hq
        · rw [if_neg hn]
      · unfold findName at ih ⊢
        rw [ih]
        by_cases hn : q n = true
        · rw [if_pos hn, if_pos hn, List.find?_cons_of_neg _ (by simpa using hb)]
        · rw [if_neg hn, if_neg hn]

theorem findName_copyAdds (scs dcs : Entries) (n : String) :
    findName (copyAdds scs dcs) n
      = if n ∈ left_only scs dcs then lookupChild scs n else none :=
  findName_filterMap _ _ _

theorem findName_recPairs (scs dcs : Entries) (n : String) :
    findName (recPairs scs dcs) n
      = if n ∈ common_dirs scs dcs then
          (lookupChild scs n).bind (fun sn => (lookupChild dcs n).map (fun dn => (sn, dn)))
        else none :=
  findName_filterMap _ _ _

theorem mapVals_names (g : String → Node → Node) (d : Entries) :
    (mapVals g d).map Prod.fst = d.map Prod.fst := by
  unfold mapVals
  rw [List.map_map]
  rfl

theorem mapVals_id {g : String → Node → Node} {d : Entries}
    (h : ∀ p ∈ d, g p.1 p.2 = p.2) : mapVals g d = d := by
  unfold mapVals
  calc d.map (fun p => (p.1, g p.1 p.2)) = d.map id := by
        apply List.map_congr_left
        intro p hp
        rw [h p hp]
        rfl
      _ = d := List.map_id d

theorem names_filterMap {α : Type} (l : List String) (h : String → Option α)
    (hall : ∀ m ∈ l, (h m).isSome = true) :
    ((l.filterMap (fun m => (h m).map (fun y => (m, y)))).map Prod.fst) = l := by
  induction l with
  | nil => rfl
  | cons m ms ih =>
    rw [List.filterMap_cons]
    cases hm : h m with
    | none =>
      have := hall m (List.mem_cons_self m ms)
      rw [hm] at this
      exact absurd this (by simp)
    | some y =>
      simp only [Option.map_some']
      rw [List.map_cons]
      rw [ih (fun b hb => hall b (List.mem_cons.mpr (Or.inr hb)))]

theorem filter_map_fst {α : Type} (q : String → Bool) (ps : List (String × α)) :
    ((ps.filter (fun p => q p.1)).map Prod.fst) = (ps.map Prod.fst).filter q := by
  induction ps with
  | nil => rfl
  | cons p ps ih =>
    rw [List.filter_cons, List.map_cons, List.filter_cons]
    by_cases hq : q p.1 = true
    · rw [if_pos (by simpa using hq), if_pos hq, List.map_cons, ih]
    · rw [if_neg (by simpa using hq), if_neg (by simpa using hq), ih]

theorem lookupChild_eq_findName (cs : Entries) (n : String) :
    lookupChild cs n = findName cs n := rfl

theorem findName_applyRemovals (names : List String) (d : Entries) (n : String) :
    findName (applyRemovals names d) n
      = if names.contains n then none else findName d n := by
  unfold applyRemovals
  rw [findName_filter (fun m => !(names.contains m)) d n]
  cases hc : names.contains n <;> simp [hc]

theorem findName_applyUpdates (names : List String) (scs d : Entries) (n : String) :
    findName (applyUpdates names scs d) n
      = (findName d n).map (fun v =>
          if names.contains n then
            match lookupChild scs n, v with
            | some (Node.file c1), Node.file c2 =>
              if _files_are_equal c1 c2 then Node.file c2 else Node.file c1
            | _, _ => v
          else v) := by
  unfold applyUpdates
  exact findName_mapVals _ d n

theorem findName_applyRecs (rs d : Entries) (n : String) :
    findName (applyRecs rs d) n
      = (findName d n).map (fun v =>
          match lookupChild rs n with
          | some t => t
          | none => v) := by
  unfold applyRecs
  exact findName_mapVals _ d n

theorem syncLevelChildren_false (recurse : String → Node → Node → Node)
    (scs dcs : Entries) :
    syncLevelChildren recurse false scs dcs
      = applyRecs ((recPairs scs dcs).map (fun q => (q.1, recurse q.1 q.2.1 q.2.2)))
          (applyRemovals (right_only scs dcs)
            (applyUpdates (common_files scs dcs) scs (dcs ++ copyAdds scs dcs))) := rfl

theorem syncLevelChildren_true (recurse : String → Node → Node → Node)
    (scs dcs : Entries) :
    syncLevelChildren recurse true scs dcs
      = applyRecs ((recPairs scs dcs).map (fun q => (q.1, recurse q.1 q.2.1 q.2.2))) dcs := rfl

theorem some_or_eq {α : Type} (a : α) (o : Option α) : (some a).or o = some a := rfl

theorem findName_mapSnd {α β : Type} (ps : List (String × α)) (f : String × α → β)
    (n : String) :
    findName (ps.map (fun q => (q.1, f q))) n = (findName ps n).map (fun a => f (n, a)) :=
  findName_mapPairs ps (fun m a => f (m, a)) n

/-- The association list of recursion results has no entry for a name
outside `common_dirs`. -/
theorem findName_recResults_none {recurse : String → Node → Node → Node}
    {scs dcs : Entries} {n : String} (h : n ∉ common_dirs scs dcs) :
    findName ((recPairs scs dcs).map (fun q => (q.1, recurse q.1 q.2.1 q.2.2))) n = none := by
  rw [findName_mapSnd, findName_recPairs, if_neg h]
  rfl

/-- The association list of recursion results maps a `common_dirs` name to
the recursion result on its two subdirectories. -/
theorem findName_recResults_some {recurse : String → Node → Node → Node}
    {scs dcs : Entries} {n : String} {sn dn : Node} (h : n ∈ common_dirs scs dcs)
    (hsn : lookupChild scs n = some sn) (hdn : lookupChild dcs n = some dn) :
    findName ((recPairs scs dcs).map (fun q => (q.1, recurse q.1 q.2.1 q.2.2))) n
      = some (recurse n sn dn) := by
  have hsn' : findName scs n = some sn := hsn
  have hdn' : findName dcs n = some dn := hdn
  rw [findName_mapSnd, findName_recPairs, if_pos h, lookupChild_eq_findName,
    lookupChild_eq_findName, hsn', hdn']
  rfl

/-- After a non-dry level, an entry deleted by the `right_only` loop is
gone. -/
theorem syncLC_right_only {recurse : String → Node → Node → Node}
    {scs dcs : Entries} {n : String} (h : n ∈ right_only scs dcs) :
    findName (syncLevelChildren recurse false scs dcs) n = none := by
  rw [syncLevelChildren_false, findName_applyRecs, findName_applyRemovals,
    if_pos (List.elem_iff.mpr h)]
  rfl

/-- After a non-dry level, a `left_only` entry has been copied over from
the source. -/
theorem syncLC_left_only {recurse : String → Node → Node → Node}
    {scs dcs : Entries} {n : String} (h : n ∈ left_only scs dcs) :
    findName (syncLevelChildren recurse false scs dcs) n = lookupChild scs n := by
  obtain ⟨hs, hb, hd⟩ := mem_left_only.mp h
  obtain ⟨sn, hsn⟩ := Option.isSome_iff_exists.mp (findName_isSome.mpr hs)
  have hnotRO : (right_only scs dcs).contains n = false :=
    contains_false (fun hc => hd (mem_right_only.mp hc).1)
  have hnotCF : (common_files scs dcs).contains n = false :=
    contains_false (fun hc => hd (mem_of_childIsFile (mem_common_files.mp hc).2.2))
  have hnotCD : n ∉ common_dirs scs dcs :=
    fun hc => hd (mem_of_childIsDir (mem_common_dirs.mp hc).2.2)
  have hRS := @findName_recResults_none recurse scs dcs _ hnotCD
  have hsn' : findName scs n = some sn := hsn
  rw [syncLevelChildren_false, findName_applyRecs, findName_applyRemovals,
    if_neg (by rw [hnotRO]; exact Bool.false_ne_true), findName_applyUpdates,
    findName_append, findName_of_not_mem hd, findName_copyAdds]
  simp only [lookupChild_eq_findName]
  rw [if_pos h, hsn']
  simp only [Option.none_or, Option.map_some', hnotCF, hRS]
  rfl

/-- After a non-dry level, a common file holds the source file's bytes
(`copy2` overwrote it if the contents differed; otherwise they already
agreed). -/
theorem syncLC_common_file {recurse : String → Node → Node → Node}
    {scs dcs : Entries} {n : String} {c1 : List Nat} (h : n ∈ common_files scs dcs)
    (hsn : lookupChild scs n = some (Node.file c1)) :
    findName (syncLevelChildren recurse false scs dcs) n = some (Node.file c1) := by
  obtain ⟨hb, hf1, hf2⟩ := mem_common_files.mp h
  obtain ⟨c2, hc2⟩ := childIsFile_iff.mp hf2
  have hsmem : n ∈ scs.map Prod.fst := mem_of_childIsFile hf1
  have hnotRO : (right_only scs dcs).contains n = false :=
    contains_false (fun hc => (mem_right_only.mp hc).2.2 hsmem)
  have hCF : (common_files scs dcs).contains n = true := List.elem_iff.mpr h
  have hnotCD : n ∉ common_dirs scs dcs := by
    intro hc
    have := (mem_common_dirs.mp hc).2.1
    rw [not_childIsDir_of_file hsn] at this
    exact Bool.false_ne_true this
  have hRS := @findName_recResults_none recurse scs dcs _ hnotCD
  have hsn' : findName scs n = some (Node.file c1) := hsn
  rw [syncLevelChildren_false, findName_applyRecs, findName_applyRemovals,
    if_neg (by rw [hnotRO]; exact Bool.false_ne_true), findName_applyUpdates,
    findName_append]
  rw [show findName dcs n = some (Node.file c2) from hc2]
  simp only [lookupChild_eq_findName]
  rw [some_or_eq]
  simp only [Option.map_some', hCF, if_true, hsn', hRS]
  by_cases heq : _files_are_equal c1 c2 = true
  · have : c1 = c2 := (files_are_equal_iff c1 c2).mp heq
    subst this
    simp [heq]
  · simp [heq]

/-- After a non-dry level, a common directory holds the result of the
recursive synchronisation of its two sides. -/
theorem syncLC_common_dir {recurse : String → Node → Node → Node}
    {scs dcs : Entries} {n : String} {sn dn : Node} (h : n ∈ common_dirs scs dcs)
    (hsn : lookupChild scs n = some sn) (hdn : lookupChild dcs n = some dn) :
    findName (syncLevelChildren recurse false scs dcs) n = some (recurse n sn dn) := by
  obtain ⟨hb, hd1, hd2⟩ := mem_common_dirs.mp h
  have hsmem : n ∈ scs.map Prod.fst := mem_of_childIsDir hd1
  have hnotRO : (right_only scs dcs).contains n = false :=
    contains_false (fun hc => (mem_right_only.mp hc).2.2 hsmem)
  have hnotCF : (common_files scs dcs).contains n = false := by
    apply contains_false
    intro hc
    obtain ⟨a, ha⟩ := childIsDir_iff.mp hd1
    have := (mem_common_files.mp hc).2.1
    rw [not_childIsFile_of_dir ha] at this
    exact Bool.false_ne_true this
  have hRS := @findName_recResults_some recurse _ _ _ _ _ h hsn hdn
  rw [syncLevelChildren_false, findName_applyRecs, findName_applyRemovals,
    if_neg (by rw [hnotRO]; exact Bool.false_ne_true), findName_applyUpdates,
    findName_append]
  rw [show findName dcs n = some dn from hdn]
  simp only [lookupChild_eq_findName]
  rw [some_or_eq]
  simp only [Option.map_some', hnotCF, hRS]

/-- A name in none of the four partitions (a hidden or ignored name, a
type-mismatched `common_funny` name, or a name absent from both sides) is
left untouched by a non-dry level. -/
theorem syncLC_untouched {recurse : String → Node → Node → Node}
    {scs dcs : Entries} {n : String}
    (h1 : n ∉ left_only scs dcs) (h2 : n ∉ right_only scs dcs)
    (h3 : n ∉ common_files scs dcs) (h4 : n ∉ common_dirs scs dcs) :
    findName (syncLevelChildren recurse false scs dcs) n = findName dcs n := by
  have hnotRO : (right_only scs dcs).contains n = false := contains_false h2
  have hnotCF : (common_files scs dcs).contains n = false := contains_false h3
  have hRS := @findName_recResults_none recurse scs dcs _ h4
  rw [syncLevelChildren_false, findName_applyRecs, findName_applyRemovals,
    if_neg (by rw [hnotRO]; exact Bool.false_ne_true), findName_applyUpdates,
    findName_append, findName_copyAdds, if_neg h1]
  cases hdn : findName dcs n with
  | none => rfl
  | some v =>
    simp only [lookupChild_eq_findName]
    rw [some_or_eq]
    simp only [Option.map_some', hnotCF, hRS]
    rfl

/-- A hidden or ignored name is untouched by a level in either mode. -/
theorem syncLC_banned {recurse : String → Node → Node → Node}
    {scs dcs : Entries} {n : String} (dry : Bool) (hb : n ∈ bannedNames) :
    findName (syncLevelChildren recurse dry scs dcs) n = findName dcs n := by
  have h1 : n ∉ left_only scs dcs := fun hc => (mem_left_only.mp hc).2.1 hb
  have h2 : n ∉ right_only scs dcs := fun hc => (mem_right_only.mp hc).2.1 hb
  have h3 : n ∉ common_files scs dcs := fun hc => (mem_common_files.mp hc).1 hb
  have h4 : n ∉ common_dirs scs dcs := fun hc => (mem_common_dirs.mp hc).1 hb
  cases dry with
  | false => exact syncLC_untouched h1 h2 h3 h4
  | true =>
    have hRS := @findName_recResults_none recurse scs dcs _ h4
    rw [syncLevelChildren_true, findName_applyRecs]
    cases hdn : findName dcs n with
    | none => rfl
    | some v =>
      simp only [Option.map_some', lookupChild_eq_findName, hRS]

/-- Names present after a non-dry level: the destination names that
survived the `right_only` deletions, followed by the copied-in
`left_only` names. -/
theorem syncLC_false_names (recurse : String → Node → Node → Node) (scs dcs : Entries) :
    (syncLevelChildren recurse false scs dcs).map Prod.fst
      = ((dcs.map Prod.fst).filter (fun m => !((right_only scs dcs).contains m)))
        ++ left_only scs dcs := by
  have hall : ∀ m ∈ left_only scs dcs, (lookupChild scs m).isSome = true :=
    fun m hm => findName_isSome.mpr (mem_left_only.mp hm).1
  rw [syncLevelChildren_false]
  unfold applyRecs
  rw [mapVals_names]
  unfold applyRemovals
  rw [filter_map_fst (fun m => !((right_only scs dcs).contains m))]
  unfold applyUpdates
  rw [mapVals_names, List.map_append]
  rw [show (copyAdds scs dcs).map Prod.fst = left_only scs dcs from
    names_filterMap (left_only scs dcs) (fun m => lookupChild scs m) hall]
  rw [List.filter_append]
  congr 1
  apply List.filter_eq_self.mpr
  intro m hm
  have hd : m ∉ dcs.map Prod.fst := (mem_left_only.mp hm).2.2
  rw [contains_false (fun hc => hd (mem_right_only.mp hc).1)]
  rfl

/-- A dry level leaves the destination's names unchanged. -/
theorem syncLC_true_names (recurse : String → Node → Node → Node) (scs dcs : Entries) :
    (syncLevelChildren recurse true scs dcs).map Prod.fst = dcs.map Prod.fst := by
  rw [syncLevelChildren_true]
  unfold applyRecs
  exact mapVals_names _ _

theorem wfF_irrel : ∀ (f g : Nat) (t : Node), nodeSize t ≤ f → nodeSize t ≤ g →
    wfF f t = wfF g t := by
  intro f
  induction f with
  | zero => intro g t hf _; have := nodeSize_pos t; omega
  | succ f ih =>
    intro g t hf hg
    cases g with
    | zero => have := nodeSize_pos t; omega
    | succ g =>
      cases t with
      | file c => rfl
      | dir cs =>
        show (nodupNames (cs.map Prod.fst) && cs.all (fun p => wfF f p.2))
          = (nodupNames (cs.map Prod.fst) && cs.all (fun p => wfF g p.2))
        congr 1
        apply all_congr_mem
        intro p hp
        have hlt : nodeSize p.2 < entriesSize cs := nodeSize_mem_lt hp
        simp only [nodeSize] at hf hg
        exact ih g p.2 (by omega) (by omega)

theorem wfNode_dir (cs : Entries) :
    wfNode (Node.dir cs)
      = (nodupNames (cs.map Prod.fst) && cs.all (fun p => wfNode p.2)) := by
  show wfF (nodeSize (Node.dir cs)) (Node.dir cs) = _
  rw [show nodeSize (Node.dir cs) = entriesSize cs + 1 from by
    simp [nodeSize, Nat.add_comm]]
  show (nodupNames (cs.map Prod.fst) && cs.all (fun p => wfF (entriesSize cs) p.2)) = _
  congr 1
  apply all_congr_mem
  intro p hp
  have hlt : nodeSize p.2 < entriesSize cs := nodeSize_mem_lt hp
  exact wfF_irrel _ _ _ (by omega) (le_refl _)

theorem wfNode_dir_iff {cs : Entries} :
    wfNode (Node.dir cs) = true
      ↔ (cs.map Prod.fst).Nodup ∧ ∀ p ∈ cs, wfNode p.2 = true := by
  rw [wfNode_dir, Bool.and_eq_true, nodupNames_iff, List.all_eq_true]

theorem noBannedF_irrel : ∀ (f g : Nat) (t : Node), nodeSize t ≤ f → nodeSize t ≤ g →
    noBannedF f t = noBannedF g t := by
  intro f
  induction f with
  | zero => intro g t hf _; have := nodeSize_pos t; omega
  | succ f ih =>
    intro g t hf hg
    cases g with
    | zero => have := nodeSize_pos t; omega
    | succ g =>
      cases t with
      | file c => rfl
      | dir cs =>
        show cs.all _ = cs.all _
        apply all_congr_mem
        intro p hp
        have hlt : nodeSize p.2 < entriesSize cs := nodeSize_mem_lt hp
        simp only [nodeSize] at hf hg
        congr 1
        exact ih g p.2 (by omega) (by omega)

theorem noBanned_dir (cs : Entries) :
    noBanned (Node.dir cs)
      = cs.all (fun p => !(bannedNames.contains p.1) && noBanned p.2) := by
  show noBannedF (nodeSize (Node.dir cs)) (Node.dir cs) = _
  rw [show nodeSize (Node.dir cs) = entriesSize cs + 1 from by
    simp [nodeSize, Nat.add_comm]]
  show cs.all _ = cs.all _
  apply all_congr_mem
  intro p hp
  have hlt : nodeSize p.2 < entriesSize cs := nodeSize_mem_lt hp
  congr 1
  exact noBannedF_irrel _ _ _ (by omega) (le_refl _)

theorem noBanned_dir_iff {cs : Entries} :
    noBanned (Node.dir cs) = true
      ↔ ∀ p ∈ cs, p.1 ∉ bannedNames ∧ noBanned p.2 = true := by
  rw [noBanned_dir, List.all_eq_true]
  constructor
  · intro h p hp
    rcases Bool.and_eq_true_iff.mp (h p hp) with ⟨h1, h2⟩
    refine ⟨fun hc => ?_, h2⟩
    rw [contains_true hc] at h1
    exact absurd h1 (by simp)
  · intro h p hp
    rcases h p hp with ⟨h1, h2⟩
    exact Bool.and_eq_true_iff.mpr ⟨by rw [contains_false h1]; rfl, h2⟩

theorem compatF_irrel : ∀ (f g : Nat) (s d : Node), nodeSize s ≤ f → nodeSize s ≤ g →
    compatF f s d = compatF g s d := by
  intro f
  induction f with
  | zero => intro g s d hf _; have := nodeSize_pos s; omega
  | succ f ih =>
    intro g s d hf hg
    cases g with
    | zero => have := nodeSize_pos s; omega
    | succ g =>
      cases s with
      | file c => rfl
      | dir scs =>
        cases d with
        | file c => rfl
        | dir dcs =>
          show scs.all _ = scs.all _
          apply all_congr_mem
          intro p hp
          have hlt : nodeSize p.2 < entriesSize scs := nodeSize_mem_lt hp
          simp only [nodeSize] at hf hg
          cases hp2 : p.2 with
          | file c =>
            cases hl : lookupChild dcs p.1 with
            | none => rfl
            | some dn => cases dn <;> rfl
          | dir a =>
            cases hl : lookupChild dcs p.1 with
            | none => rfl
            | some dn =>
              cases dn with
              | file c2 => rfl
              | dir b =>
                have hsz : nodeSize (Node.dir a) ≤ entriesSize scs := by
                  rw [← hp2]; omega
                exact ih g (Node.dir a) (Node.dir b) (by omega) (by omega)

/-- Unfold `compat` on a pair of common children: they are files on both
sides, or directories on both sides whose subtrees are again compatible. -/
theorem compat_dir_spec {scs dcs : Entries}
    (h : compat (Node.dir scs) (Node.dir dcs) = true)
    {n : String} {sn dn : Node} (hsn : lookupChild scs n = some sn)
    (hdn : lookupChild dcs n = some dn) :
    ((∃ c1, sn = Node.file c1) ∧ (∃ c2, dn = Node.file c2))
    ∨ ((∃ a, sn = Node.dir a) ∧ (∃ b, dn = Node.dir b) ∧ compat sn dn = true) := by
  have hmem := findName_mem hsn
  have hb : nodeSize sn ≤ entriesSize scs :=
    Nat.le_of_lt (by simpa using nodeSize_mem_lt hmem)
  unfold compat at h
  rw [show nodeSize (Node.dir scs) = entriesSize scs + 1 from by
    simp [nodeSize, Nat.add_comm]] at h
  replace h := List.all_eq_true.mp h (n, sn) hmem
  simp only at h
  rw [hdn] at h
  cases sn with
  | file c1 =>
    cases dn with
    | file c2 => exact Or.inl ⟨⟨c1, rfl⟩, ⟨c2, rfl⟩⟩
    | dir b => exact absurd h (by simp)
  | dir a =>
    cases dn with
    | file c2 => exact absurd h (by simp)
    | dir b =>
      refine Or.inr ⟨⟨a, rfl⟩, ⟨b, rfl⟩, ?_⟩
      unfold compat
      rw [compatF_irrel (nodeSize (Node.dir a)) (entriesSize scs) _ _ (le_refl _) hb]
      exact h

theorem treeEqbF_irrel : ∀ (f g : Nat) (a b : Node), nodeSize a ≤ f → nodeSize a ≤ g →
    treeEqbF f a b = treeEqbF g a b := by
  intro f
  induction f with
  | zero => intro g a b hf _; have := nodeSize_pos a; omega
  | succ f ih =>
    intro g a b hf hg
    cases g with
    | zero => have := nodeSize_pos a; omega
    | succ g =>
      cases a with
      | file c =>
        cases b with
        | file c2 => rfl
        | dir dcs => rfl
      | dir scs =>
        cases b with
        | file c2 => rfl
        | dir dcs =>
          show (scs.all _ && _) = (scs.all _ && _)
          congr 1
          apply all_congr_mem
          intro p hp
          have hlt : nodeSize p.2 < entriesSize scs := nodeSize_mem_lt hp
          simp only [nodeSize] at hf hg
          cases hl : lookupChild dcs p.1 with
          | none => rfl
          | some dn => exact ih g p.2 dn (by omega) (by omega)

theorem treeEqb_dir (scs dcs : Entries) :
    treeEqb (Node.dir scs) (Node.dir dcs)
      = ((scs.all (fun p =>
            match lookupChild dcs p.1 with
            | some dn => treeEqb p.2 dn
            | none => false))
          && dcs.all (fun p => (lookupChild scs p.1).isSome)) := by
  show treeEqbF (nodeSize (Node.dir scs)) (Node.dir scs) (Node.dir dcs) = _
  rw [show nodeSize (Node.dir scs) = entriesSize scs + 1 from by
    simp [nodeSize, Nat.add_comm]]
  show (scs.all _ && _) = (scs.all _ && _)
  congr 1
  apply all_congr_mem
  intro p hp
  have hlt : nodeSize p.2 < entriesSize scs := nodeSize_mem_lt hp
  cases hl : lookupChild dcs p.1 with
  | none => rfl
  | some dn => exact treeEqbF_irrel _ _ _ _ (by omega) (le_refl _)

theorem treeEqb_dir_iff {scs dcs : Entries} :
    treeEqb (Node.dir scs) (Node.dir dcs) = true
      ↔ (∀ p ∈ scs, ∃ dn, lookupChild dcs p.1 = some dn ∧ treeEqb p.2 dn = true)
        ∧ (∀ p ∈ dcs, p.1 ∈ scs.map Prod.fst) := by
  rw [treeEqb_dir, Bool.and_eq_true, List.all_eq_true, List.all_eq_true]
  constructor
  · rintro ⟨h1, h2⟩
    constructor
    · intro p hp
      have := h1 p hp
      cases hl : lookupChild dcs p.1 with
      | none => rw [hl] at this; exact absurd this (by simp)
      | some dn => rw [hl] at this; exact ⟨dn, rfl, this⟩
    · intro p hp
      exact findName_isSome.mp (h2 p hp)
  · rintro ⟨h1, h2⟩
    constructor
    · intro p hp
      obtain ⟨dn, hdn, ht⟩ := h1 p hp
      rw [hdn]
      exact ht
    · intro p hp
      exact findName_isSome.mpr (h2 p hp)

/-- `treeEqb` is reflexive on well-formed trees. -/
theorem treeEqb_refl : ∀ (t : Node), wfNode t = true → treeEqb t t = true := by
  have main : ∀ (f : Nat) (t : Node), nodeSize t ≤ f → wfNode t = true →
      treeEqbF f t t = true := by
    intro f
    induction f with
    | zero => intro t hf _; have := nodeSize_pos t; omega
    | succ f ih =>
      intro t hf hw
      cases t with
      | file c => simp [treeEqbF]
      | dir cs =>
        obtain ⟨hnd, hcw⟩ := wfNode_dir_iff.mp hw
        show (cs.all _ && cs.all _) = true
        rw [Bool.and_eq_true]
        constructor
        · rw [List.all_eq_true]
          intro p hp
          rw [show lookupChild cs p.1 = some p.2 from findName_of_mem_nodup hnd hp]
          have hlt : nodeSize p.2 < entriesSize cs := nodeSize_mem_lt hp
          simp only [nodeSize] at hf
          exact ih p.2 (by omega) (hcw p hp)
        · rw [List.all_eq_true]
          intro p hp
          exact findName_isSome.mpr (List.mem_map.mpr ⟨p, hp, rfl⟩)
  intro t hw
  exact main (nodeSize t) t (le_refl _) hw

theorem syncRecF_succ_dir (fuel : Nat) (dry : Bool) (sp dp : List String)
    (scs dcs : Entries) :
    syncRecF (fuel + 1) dry sp dp (Node.dir scs) (Node.dir dcs)
      = (Node.dir (syncLevelChildren
            (fun n sn dn => (syncRecF fuel dry (sp ++ [n]) (dp ++ [n]) sn dn).1)
            dry scs dcs),
         syncLevelActs
            (fun n sn dn => (syncRecF fuel dry (sp ++ [n]) (dp ++ [n]) sn dn).2)
            sp dp scs dcs) := rfl

theorem syncRecF_zero (dry : Bool) (sp dp : List String) (s d : Node) :
    syncRecF 0 dry sp dp s d = (d, []) := rfl

theorem syncRecF_nondir (fuel : Nat) (dry : Bool) (sp dp : List String) {s d : Node}
    (h : (∃ c, s = Node.file c) ∨ ∃ c, d = Node.file c) :
    syncRecF (fuel + 1) dry sp dp s d = (d, []) := by
  rcases h with ⟨c, rfl⟩ | ⟨c, rfl⟩
  · cases d <;> rfl
  · cases s <;> rfl

theorem mem_recPairs {scs dcs : Entries} {q : String × Node × Node} :
    q ∈ recPairs scs dcs
      ↔ q.1 ∈ common_dirs scs dcs ∧ lookupChild scs q.1 = some q.2.1
        ∧ lookupChild dcs q.1 = some q.2.2 := by
  unfold recPairs
  rw [List.mem_filterMap]
  constructor
  · rintro ⟨m, hm, he⟩
    cases hs : lookupChild scs m with
    | none => rw [hs] at he; exact absurd he (by simp)
    | some sn =>
      cases hd : lookupChild dcs m with
      | none => rw [hs, hd] at he; exact absurd he (by simp)
      | some dn =>
        rw [hs, hd] at he
        have hq : q = (m, sn, dn) := by
          have : some (m, sn, dn) = some q := by simpa using he
          exact (Option.some_inj.mp this).symm
        subst hq
        exact ⟨hm, hs, hd⟩
  · rintro ⟨h1, h2, h3⟩
    refine ⟨q.1, h1, ?_⟩
    rw [h2, h3]
    simp

/-- The fuel `nodeSize src` always dominates the source subtrees the
recursion descends into. -/
theorem nodeSize_recPairs {scs dcs : Entries} {q : String × Node × Node}
    (h : q ∈ recPairs scs dcs) : nodeSize q.2.1 < nodeSize (Node.dir scs) :=
  nodeSize_lookup (mem_recPairs.mp h).2.1

/-- Dry-run purity, fuel version: with `dry_run=True` no level changes the
destination tree (every mutating call is guarded), so the whole recursion
returns it untouched. -/
theorem syncRecF_dry_pure : ∀ (fuel : Nat) (sp dp : List String) (s d : Node),
    wfNode d = true → (syncRecF fuel true sp dp s d).1 = d := by
  intro fuel
  induction fuel with
  | zero => intro sp dp s d _; rfl
  | succ fuel ih =>
    intro sp dp s d hw
    cases s with
    | file c => rw [syncRecF_nondir _ _ _ _ (Or.inl ⟨c, rfl⟩)]
    | dir scs =>
      cases d with
      | file c => rw [syncRecF_nondir _ _ _ _ (Or.inr ⟨c, rfl⟩)]
      | dir dcs =>
        rw [syncRecF_succ_dir]
        show Node.dir (syncLevelChildren _ true scs dcs) = Node.dir dcs
        obtain ⟨hnd, hcw⟩ := wfNode_dir_iff.mp hw
        congr 1
        rw [syncLevelChildren_true]
        unfold applyRecs
        apply mapVals_id
        intro p hp
        simp only [lookupChild_eq_findName]
        cases hl : findName ((recPairs scs dcs).map
            (fun q => (q.1, (syncRecF fuel true (sp ++ [q.1]) (dp ++ [q.1]) q.2.1 q.2.2).1)))
            p.1 with
        | none => rfl
        | some t =>
          show t = p.2
          rw [findName_mapSnd] at hl
          cases hr : findName (recPairs scs dcs) p.1 with
          | none => rw [hr] at hl; exact absurd hl (by simp)
          | some pr =>
            rw [hr] at hl
            simp only [Option.map_some'] at hl
            have hspec := mem_recPairs.mp (findName_mem hr)
            have hdcs : findName dcs p.1 = some p.2 := findName_of_mem_nodup hnd hp
            have hpr2 : pr.2 = p.2 := by
              have h2 : findName dcs p.1 = some pr.2 := hspec.2.2
              rw [hdcs] at h2
              exact (Option.some_inj.mp h2).symm
            have hrec := ih (sp ++ [p.1]) (dp ++ [p.1]) pr.1 p.2 (hcw p hp)
            have ht : t = (syncRecF fuel true (sp ++ [p.1]) (dp ++ [p.1]) pr.1 pr.2).1 :=
              (Option.some_inj.mp hl).symm
            rw [ht, hpr2, hrec]

/-- The dry run and the real run emit the same action sequence, fuel
version: each level's four loops classify entries from the pre-level
state, and the recursion descends into the same common subdirectory
pairs. -/
theorem syncRecF_acts_dry_eq : ∀ (fuel : Nat) (sp dp : List String) (s d : Node),
    (syncRecF fuel true sp dp s d).2 = (syncRecF fuel false sp dp s d).2 := by
  intro fuel
  induction fuel with
  | zero => intro sp dp s d; rfl
  | succ fuel ih =>
    intro sp dp s d
    cases s with
    | file c =>
      rw [syncRecF_nondir _ _ _ _ (Or.inl ⟨c, rfl⟩),
        syncRecF_nondir _ _ _ _ (Or.inl ⟨c, rfl⟩)]
    | dir scs =>
      cases d with
      | file c =>
        rw [syncRecF_nondir _ _ _ _ (Or.inr ⟨c, rfl⟩),
          syncRecF_nondir _ _ _ _ (Or.inr ⟨c, rfl⟩)]
      | dir dcs =>
        rw [syncRecF_succ_dir, syncRecF_succ_dir]
        show syncLevelActs
            (fun n sn dn => (syncRecF fuel true (sp ++ [n]) (dp ++ [n]) sn dn).2)
            sp dp scs dcs
          = syncLevelActs
            (fun n sn dn => (syncRecF fuel false (sp ++ [n]) (dp ++ [n]) sn dn).2)
            sp dp scs dcs
        unfold syncLevelActs
        apply congrArg (fun x => copyActions sp dp scs dcs ++ updateActions sp dp scs dcs
          ++ removeActions dp scs dcs ++ x)
        apply congrArg List.flatten
        apply List.map_congr_left
        intro q hq
        exact ih (sp ++ [q.1]) (dp ++ [q.1]) q.2.1 q.2.2

theorem syncLevelActs_eq (recurse : String → Node → Node → List SyncAction)
    (sp dp : List String) (scs dcs : Entries) :
    syncLevelActs recurse sp dp scs dcs
      = copyActions sp dp scs dcs ++ updateActions sp dp scs dcs
        ++ removeActions dp scs dcs
        ++ ((recPairs scs dcs).map (fun q => recurse q.1 q.2.1 q.2.2)).flatten := rfl

/-- Synchronising a tree with an identical copy of itself emits no
actions. -/
theorem syncRecF_self : ∀ (fuel : Nat) (sp dp : List String) (t : Node),
    (syncRecF fuel false sp dp t t).2 = [] := by
  intro fuel
  induction fuel with
  | zero => intro sp dp t; rfl
  | succ fuel ih =>
    intro sp dp t
    cases t with
    | file c => rw [syncRecF_nondir _ _ _ _ (Or.inl ⟨c, rfl⟩)]
    | dir cs =>
      rw [syncRecF_succ_dir]
      show syncLevelActs
          (fun n sn dn => (syncRecF fuel false (sp ++ [n]) (dp ++ [n]) sn dn).2)
          sp dp cs cs = []
      rw [syncLevelActs_eq]
      have hLO : left_only cs cs = [] := by
        apply List.filter_eq_nil_iff.mpr
        intro n hn
        rw [contains_true hn]
        simp
      have hRO : right_only cs cs = [] := by
        apply List.filter_eq_nil_iff.mpr
        intro n hn
        rw [contains_true hn]
        simp
      have hCA : copyActions sp dp cs cs = [] := by
        unfold copyActions
        rw [hLO]
        rfl
      have hUA : updateActions sp dp cs cs = [] := by
        apply List.filterMap_eq_nil_iff.mpr
        intro n hn
        cases hl : lookupChild cs n with
        | none => rfl
        | some t =>
          cases t with
          | file c => simp [files_are_equal_refl c]
          | dir a => rfl
      have hRA : removeActions dp cs cs = [] := by
        unfold removeActions
        rw [hRO]
        rfl
      rw [hCA, hUA, hRA]
      simp only [List.nil_append]
      apply List.flatten_eq_nil_iff.mpr
      intro l hl
      obtain ⟨q, hq, rfl⟩ := List.mem_map.mp hl
      obtain ⟨_, hsn, hdn⟩ := mem_recPairs.mp hq
      have : q.2.1 = q.2.2 := by
        rw [hsn] at hdn
        exact Option.some_inj.mp hdn
      rw [← this]
      exact ih _ _ _

/-- Idempotence, fuel version: a second non-dry run over the result of a
first non-dry run emits no actions. -/
theorem syncRecF_idem : ∀ (f2 : Nat) (sp dp sp1 dp1 : List String) (s d : Node) (f1 : Nat),
    nodeSize s ≤ f1 → nodeSize s ≤ f2 →
    (syncRecF f2 false sp dp s (syncRecF f1 false sp1 dp1 s d).1).2 = [] := by
  intro f2
  induction f2 with
  | zero => intro sp dp sp1 dp1 s d f1 _ _; rfl
  | succ f2 ih =>
    intro sp dp sp1 dp1 s d f1 hb1 hb2
    cases s with
    | file c =>
      rw [syncRecF_nondir _ _ _ _ (Or.inl ⟨c, rfl⟩)]
    | dir scs =>
      cases f1 with
      | zero =>
        have := nodeSize_pos (Node.dir scs)
        omega
      | succ f1 =>
        cases d with
        | file c =>
          rw [syncRecF_nondir _ _ _ _ (Or.inr ⟨c, rfl⟩)]
          rw [syncRecF_nondir _ _ _ _ (Or.inr ⟨c, rfl⟩)]
        | dir dcs =>
          rw [syncRecF_succ_dir]
          set L := syncLevelChildren
            (fun n sn dn => (syncRecF f1 false (sp1 ++ [n]) (dp1 ++ [n]) sn dn).1)
            false scs dcs with hL
          show (syncRecF (f2 + 1) false sp dp (Node.dir scs) (Node.dir L)).2 = []
          have hbound : entriesSize scs ≤ f1 ∧ entriesSize scs ≤ f2 := by
            simp only [nodeSize] at hb1 hb2
            omega
          -- membership of the new names
          have hLnames : ∀ n, n ∈ scs.map Prod.fst → n ∉ bannedNames →
              n ∈ L.map Prod.fst := by
            intro n hs hb
            rw [hL, syncLC_false_names]
            rw [List.mem_append]
            by_cases hd : n ∈ dcs.map Prod.fst
            · left
              rw [List.mem_filter]
              refine ⟨hd, ?_⟩
              rw [contains_false (fun hc => (mem_right_only.mp hc).2.2 hs)]
              rfl
            · right
              exact mem_left_only.mpr ⟨hs, hb, hd⟩
          have hLnames2 : ∀ n, n ∈ L.map Prod.fst → n ∉ bannedNames →
              n ∈ scs.map Prod.fst := by
            intro n hLn hb
            rw [hL, syncLC_false_names] at hLn
            rcases List.mem_append.mp hLn with hf | hlo
            · rw [List.mem_filter] at hf
              by_cases hs : n ∈ scs.map Prod.fst
              · exact hs
              · exfalso
                have : n ∈ right_only scs dcs := mem_right_only.mpr ⟨hf.1, hb, hs⟩
                rw [contains_true this] at hf
                exact absurd hf.2 (by simp)
            · exact (mem_left_only.mp hlo).1
          rw [syncRecF_succ_dir]
          show syncLevelActs
              (fun n sn dn => (syncRecF f2 false (sp ++ [n]) (dp ++ [n]) sn dn).2)
              sp dp scs L = []
          rw [syncLevelActs_eq]
          have hLO2 : left_only scs L = [] := by
            apply List.filter_eq_nil_iff.mpr
            intro n hn
            obtain ⟨hs, hb⟩ := mem_dirListing.mp hn
            rw [contains_true (mem_dirListing.mpr ⟨hLnames n hs hb, hb⟩)]
            simp
          have hRO2 : right_only scs L = [] := by
            apply List.filter_eq_nil_iff.mpr
            intro n hn
            obtain ⟨hs, hb⟩ := mem_dirListing.mp hn
            rw [contains_true (mem_dirListing.mpr ⟨hLnames2 n hs hb, hb⟩)]
            simp
          have hCA : copyActions sp dp scs L = [] := by
            unfold copyActions
            rw [hLO2]
            rfl
          have hRA : removeActions dp scs L = [] := by
            unfold removeActions
            rw [hRO2]
            rfl
          have hUA : updateActions sp dp scs L = [] := by
            apply List.filterMap_eq_nil_iff.mpr
            intro n hn
            obtain ⟨hb, hf1, hf2⟩ := mem_common_files.mp hn
            obtain ⟨c1, hc1⟩ := childIsFile_iff.mp hf1
            have hLn : findName L n = some (Node.file c1) := by
              by_cases hlo : n ∈ left_only scs dcs
              · rw [hL]
                rw [syncLC_left_only hlo]
                exact hc1
              · have hs : n ∈ scs.map Prod.fst :=
                  findName_isSome.mp (by rw [← lookupChild_eq_findName, hc1]; rfl)
                have hd : n ∈ dcs.map Prod.fst := by
                  by_contra hd
                  exact hlo (mem_left_only.mpr ⟨hs, hb, hd⟩)
                obtain ⟨dn, hdn⟩ := Option.isSome_iff_exists.mp (findName_isSome.mpr hd)
                cases dn with
                | file c2 =>
                  have hcf : n ∈ common_files scs dcs :=
                    mem_common_files.mpr ⟨hb, hf1, childIsFile_iff.mpr ⟨c2, hdn⟩⟩
                  rw [hL]
                  exact syncLC_common_file hcf hc1
                | dir b =>
                  exfalso
                  have hunt : findName L n = findName dcs n := by
                    rw [hL]
                    apply syncLC_untouched
                    · exact hlo
                    · exact fun hc => (mem_right_only.mp hc).2.2 hs
                    · intro hc
                      have := (mem_common_files.mp hc).2.2
                      rw [childIsFile_iff] at this
                      obtain ⟨c', hc'⟩ := this
                      rw [lookupChild_eq_findName, hdn] at hc'
                      exact Node.noConfusion (Option.some_inj.mp hc')
                    · intro hc
                      have := (mem_common_dirs.mp hc).2.1
                      rw [childIsDir_iff] at this
                      obtain ⟨a, ha⟩ := this
                      rw [hc1] at ha
                      exact Node.noConfusion (Option.some_inj.mp ha)
                  obtain ⟨c', hc'⟩ := childIsFile_iff.mp hf2
                  rw [lookupChild_eq_findName, hunt, hdn] at hc'
                  exact Node.noConfusion (Option.some_inj.mp hc')
            rw [hc1, lookupChild_eq_findName, hLn]
            simp [files_are_equal_refl c1]
          rw [hCA, hUA, hRA]
          simp only [List.nil_append]
          apply List.flatten_eq_nil_iff.mpr
          intro l hl
          obtain ⟨q, hq, rfl⟩ := List.mem_map.mp hl
          obtain ⟨hcd, hsn, hdn⟩ := mem_recPairs.mp hq
          obtain ⟨hb, hd1, hd2⟩ := mem_common_dirs.mp hcd
          obtain ⟨a, ha⟩ := childIsDir_iff.mp hd1
          -- identify the destination-side child of the second run
          by_cases hlo : q.1 ∈ left_only scs dcs
          · have : findName L q.1 = lookupChild scs q.1 := by
              rw [hL]; exact syncLC_left_only hlo
            have hqq : q.2.2 = q.2.1 := by
              have h1 : findName L q.1 = some q.2.2 := hdn
              rw [this, hsn] at h1
              exact (Option.some_inj.mp h1).symm
            rw [hqq]
            exact syncRecF_self f2 _ _ _
          · have hs : q.1 ∈ scs.map Prod.fst :=
              findName_isSome.mp (by rw [← lookupChild_eq_findName, hsn]; rfl)
            have hd : q.1 ∈ dcs.map Prod.fst := by
              by_contra hd
              exact hlo (mem_left_only.mpr ⟨hs, hb, hd⟩)
            obtain ⟨dn0, hdn0⟩ := Option.isSome_iff_exists.mp (findName_isSome.mpr hd)
            cases dn0 with
            | file c2 =>
              exfalso
              have hunt : findName L q.1 = findName dcs q.1 := by
                rw [hL]
                apply syncLC_untouched
                · exact hlo
                · exact fun hc => (mem_right_only.mp hc).2.2 hs
                · intro hc
                  have := (mem_common_files.mp hc).2.1
                  rw [childIsFile_iff] at this
                  obtain ⟨c', hc'⟩ := this
                  rw [hc'] at hsn
                  rw [ha] at hc'
                  exact Node.noConfusion (Option.some_inj.mp hc')
                · intro hc
                  have := (mem_common_dirs.mp hc).2.2
                  rw [childIsDir_iff] at this
                  obtain ⟨b', hb'⟩ := this
                  rw [lookupChild_eq_findName, hdn0] at hb'
                  exact Node.noConfusion (Option.some_inj.mp hb')
              obtain ⟨b', hb'⟩ := childIsDir_iff.mp hd2
              rw [lookupChild_eq_findName, hunt, hdn0] at hb'
              exact Node.noConfusion (Option.some_inj.mp hb')
            | dir b0 =>
              have hcd0 : q.1 ∈ common_dirs scs dcs :=
                mem_common_dirs.mpr ⟨hb, hd1, childIsDir_iff.mpr ⟨b0, hdn0⟩⟩
              have hLq : findName L q.1
                  = some ((syncRecF f1 false (sp1 ++ [q.1]) (dp1 ++ [q.1]) q.2.1 (Node.dir b0)).1) := by
                rw [hL]
                exact syncLC_common_dir hcd0 hsn hdn0
              have hqq : q.2.2
                  = (syncRecF f1 false (sp1 ++ [q.1]) (dp1 ++ [q.1]) q.2.1 (Node.dir b0)).1 := by
                have h1 : findName L q.1 = some q.2.2 := hdn
                rw [hLq] at h1
                exact (Option.some_inj.mp h1).symm
              rw [hqq]
              have hs1 : nodeSize q.2.1 ≤ f1 := by
                have := nodeSize_lookup hsn
                simp only [nodeSize] at this ⊢
                omega
              have hs2 : nodeSize q.2.1 ≤ f2 := by
                have := nodeSize_lookup hsn
                simp only [nodeSize] at this ⊢
                omega
              exact ih (sp ++ [q.1]) (dp ++ [q.1]) (sp1 ++ [q.1]) (dp1 ++ [q.1])
                q.2.1 (Node.dir b0) f1 hs1 hs2

/-- Convergence, fuel version: under well-formedness, absence of hidden or
ignored names, and absence of type-mismatched common entries, one non-dry
run makes the destination content-and-structure equal to the source. -/
theorem syncRecF_converges : ∀ (fuel : Nat) (sp dp : List String) (scs dcs : Entries),
    nodeSize (Node.dir scs) ≤ fuel →
    wfNode (Node.dir scs) = true → wfNode (Node.dir dcs) = true →
    noBanned (Node.dir scs) = true → noBanned (Node.dir dcs) = true →
    compat (Node.dir scs) (Node.dir dcs) = true →
    treeEqb (Node.dir scs)
      (syncRecF fuel false sp dp (Node.dir scs) (Node.dir dcs)).1 = true := by
  intro fuel
  induction fuel with
  | zero =>
    intro sp dp scs dcs hb _ _ _ _ _
    have := nodeSize_pos (Node.dir scs)
    omega
  | succ fuel ih =>
    intro sp dp scs dcs hb hws hwd hbs hbd hcp
    obtain ⟨hnds, hcws⟩ := wfNode_dir_iff.mp hws
    obtain ⟨hndd, hcwd⟩ := wfNode_dir_iff.mp hwd
    have hbans := noBanned_dir_iff.mp hbs
    have hband := noBanned_dir_iff.mp hbd
    have hres : (syncRecF (fuel + 1) false sp dp (Node.dir scs) (Node.dir dcs)).1
        = Node.dir (syncLevelChildren
            (fun n sn dn => (syncRecF fuel false (sp ++ [n]) (dp ++ [n]) sn dn).1)
            false scs dcs) := rfl
    have hes : entriesSize scs ≤ fuel := by
      simp only [nodeSize] at hb
      omega
    rw [hres, treeEqb_dir_iff]
    constructor
    · intro p hp
      have hbp : p.1 ∉ bannedNames := (hbans p hp).1
      have hps : lookupChild scs p.1 = some p.2 := findName_of_mem_nodup hnds hp
      by_cases hd : p.1 ∈ dcs.map Prod.fst
      · obtain ⟨dn, hdn⟩ := Option.isSome_iff_exists.mp (findName_isSome.mpr hd)
        have hdn' : lookupChild dcs p.1 = some dn := hdn
        have hdmem := findName_mem hdn
        rcases compat_dir_spec hcp hps hdn' with ⟨⟨c1, hc1⟩, ⟨c2, hc2⟩⟩
          | ⟨⟨a, ha⟩, ⟨b, hbb⟩, hcab⟩
        · have hcf : p.1 ∈ common_files scs dcs := by
            apply mem_common_files.mpr
            refine ⟨hbp, ?_, ?_⟩
            · exact childIsFile_iff.mpr ⟨c1, by rw [hps, hc1]⟩
            · exact childIsFile_iff.mpr ⟨c2, by rw [hdn', hc2]⟩
          refine ⟨Node.file c1, ?_, ?_⟩
          · rw [lookupChild_eq_findName]
            exact syncLC_common_file hcf (by rw [hps, hc1])
          · rw [hc1]
            show (c1 == c1) = true
            exact beq_self_eq_true c1
        · have hcd : p.1 ∈ common_dirs scs dcs := by
            apply mem_common_dirs.mpr
            refine ⟨hbp, ?_, ?_⟩
            · exact childIsDir_iff.mpr ⟨a, by rw [hps, ha]⟩
            · exact childIsDir_iff.mpr ⟨b, by rw [hdn', hbb]⟩
          refine ⟨(syncRecF fuel false (sp ++ [p.1]) (dp ++ [p.1]) p.2 dn).1, ?_, ?_⟩
          · rw [lookupChild_eq_findName]
            exact syncLC_common_dir hcd hps hdn'
          · rw [ha, hbb]
            rw [ha] at hcab
            rw [hbb] at hcab
            apply ih
            · have hlt : nodeSize p.2 < entriesSize scs := nodeSize_mem_lt hp
              rw [ha] at hlt
              omega
            · rw [← ha]; exact hcws p hp
            · rw [← hbb]; exact hcwd _ hdmem
            · rw [← ha]; exact (hbans p hp).2
            · rw [← hbb]; exact (hband _ hdmem).2
            · exact hcab
      · have hlo : p.1 ∈ left_only scs dcs :=
          mem_left_only.mpr ⟨List.mem_map.mpr ⟨p, hp, rfl⟩, hbp, hd⟩
        refine ⟨p.2, ?_, treeEqb_refl p.2 (hcws p hp)⟩
        rw [lookupChild_eq_findName, syncLC_left_only hlo]
        exact hps
    · intro p hpL
      have hname : p.1 ∈ (syncLevelChildren
          (fun n sn dn => (syncRecF fuel false (sp ++ [n]) (dp ++ [n]) sn dn).1)
          false scs dcs).map Prod.fst := List.mem_map.mpr ⟨p, hpL, rfl⟩
      rw [syncLC_false_names] at hname
      rcases List.mem_append.mp hname with hf | hlo
      · rw [List.mem_filter] at hf
        obtain ⟨q, hq, hq1⟩ := List.mem_map.mp hf.1
        have hbq : p.1 ∉ bannedNames := by
          rw [← hq1]
          exact (hband q hq).1
        by_cases hs : p.1 ∈ scs.map Prod.fst
        · exact hs
        · exfalso
          have : p.1 ∈ right_only scs dcs := mem_right_only.mpr ⟨hf.1, hbq, hs⟩
          rw [contains_true this] at hf
          exact absurd hf.2 (by simp)
      · exact (mem_left_only.mp hlo).1

theorem mem_copyActions {sp dp : List String} {scs dcs : Entries} {a : SyncAction}
    (h : a ∈ copyActions sp dp scs dcs) :
    ∃ n ∈ left_only scs dcs, actionWrites a = dp ++ [n] := by
  obtain ⟨n, hn, he⟩ := List.mem_filterMap.mp h
  refine ⟨n, hn, ?_⟩
  cases hl : lookupChild scs n with
  | none => rw [hl] at he; exact absurd he (by simp)
  | some t =>
    rw [hl] at he
    cases t with
    | file c =>
      rw [← Option.some_inj.mp he]
      rfl
    | dir cs2 =>
      rw [← Option.some_inj.mp he]
      rfl

theorem mem_updateActions {sp dp : List String} {scs dcs : Entries} {a : SyncAction}
    (h : a ∈ updateActions sp dp scs dcs) :
    ∃ n ∈ common_files scs dcs, actionWrites a = dp ++ [n] := by
  obtain ⟨n, hn, he⟩ := List.mem_filterMap.mp h
  refine ⟨n, hn, ?_⟩
  cases hl : lookupChild scs n with
  | none => rw [hl] at he; exact absurd he (by simp)
  | some t =>
    rw [hl] at he
    cases hl2 : lookupChild dcs n with
    | none =>
      rw [hl2] at he
      cases t <;> exact absurd he (by simp)
    | some t2 =>
      rw [hl2] at he
      cases t with
      | dir cs2 => cases t2 <;> exact absurd he (by simp)
      | file c1 =>
        cases t2 with
        | dir cs3 => exact absurd he (by simp)
        | file c2 =>
          by_cases heq : _files_are_equal c1 c2 = true
          · exfalso
            have hcon : (none : Option SyncAction) = some a := by
              rw [← he]
              simp [heq]
            exact Option.noConfusion hcon
          · have hupd : some (SyncAction.update (dp ++ [n]) (sp ++ [n])) = some a := by
              rw [← he]
              simp [heq]
            rw [← Option.some_inj.mp hupd]
            rfl

theorem mem_removeActions {dp : List String} {scs dcs : Entries} {a : SyncAction}
    (h : a ∈ removeActions dp scs dcs) :
    ∃ n ∈ right_only scs dcs, actionWrites a = dp ++ [n] := by
  obtain ⟨n, hn, he⟩ := List.mem_filterMap.mp h
  refine ⟨n, hn, ?_⟩
  cases hl : lookupChild dcs n with
  | none => rw [hl] at he; exact absurd he (by simp)
  | some t =>
    rw [hl] at he
    cases t with
    | file c =>
      rw [← Option.some_inj.mp he]
      rfl
    | dir cs2 =>
      rw [← Option.some_inj.mp he]
      rfl

/-- Every emitted action writes strictly below the destination root, and
the first path component below the root is a member of one of the four
partitions of that level. -/
theorem syncRecF_writes : ∀ (fuel : Nat) (dry : Bool) (sp dp : List String)
    (scs dcs : Entries), ∀ a ∈ (syncRecF fuel dry sp dp (Node.dir scs) (Node.dir dcs)).2,
    ∃ m r, actionWrites a = dp ++ m :: r
      ∧ (m ∈ left_only scs dcs ∨ m ∈ common_files scs dcs ∨ m ∈ right_only scs dcs
         ∨ m ∈ common_dirs scs dcs) := by
  intro fuel
  induction fuel with
  | zero => intro dry sp dp scs dcs a ha; exact absurd ha (List.not_mem_nil a)
  | succ fuel ih =>
    intro dry sp dp scs dcs a ha
    have ha' : a ∈ syncLevelActs
        (fun n sn dn => (syncRecF fuel dry (sp ++ [n]) (dp ++ [n]) sn dn).2)
        sp dp scs dcs := ha
    rw [syncLevelActs_eq] at ha'
    rcases List.mem_append.mp ha' with h3 | hrec
    · rcases List.mem_append.mp h3 with h2 | hr
      · rcases List.mem_append.mp h2 with hc | hu
        · obtain ⟨n, hn, hw⟩ := mem_copyActions hc
          exact ⟨n, [], hw, Or.inl hn⟩
        · obtain ⟨n, hn, hw⟩ := mem_updateActions hu
          exact ⟨n, [], hw, Or.inr (Or.inl hn)⟩
      · obtain ⟨n, hn, hw⟩ := mem_removeActions hr
        exact ⟨n, [], hw, Or.inr (Or.inr (Or.inl hn))⟩
    · obtain ⟨l, hl, hal⟩ := List.mem_flatten.mp hrec
      obtain ⟨q, hq, rfl⟩ := List.mem_map.mp hl
      obtain ⟨hcd, hsn, hdn⟩ := mem_recPairs.mp hq
      obtain ⟨_, hd1, hd2⟩ := mem_common_dirs.mp hcd
      obtain ⟨a1, ha1⟩ := childIsDir_iff.mp hd1
      obtain ⟨b1, hb1⟩ := childIsDir_iff.mp hd2
      have hq1 : q.2.1 = Node.dir a1 := by
        rw [hsn] at ha1
        exact Option.some_inj.mp ha1
      have hq2 : q.2.2 = Node.dir b1 := by
        rw [hdn] at hb1
        exact Option.some_inj.mp hb1
      rw [hq1, hq2] at hal
      obtain ⟨m, r, hw, _⟩ := ih dry (sp ++ [q.1]) (dp ++ [q.1]) a1 b1 a hal
      refine ⟨q.1, m :: r, ?_, Or.inr (Or.inr (Or.inr hcd))⟩
      rw [hw, List.append_assoc]
      rfl

theorem treeEqb_file_iff {c1 c2 : List Nat} :
    treeEqb (Node.file c1) (Node.file c2) = true ↔ c1 = c2 := by
  show (c1 == c2) = true ↔ c1 = c2
  exact beq_iff_eq

theorem treeEqb_file_dir {c : List Nat} {b : Entries} :
    treeEqb (Node.file c) (Node.dir b) = false := rfl

theorem treeEqb_dir_file {a : Entries} {c : List Nat} :
    treeEqb (Node.dir a) (Node.file c) = false := by
  show treeEqbF (nodeSize (Node.dir a)) (Node.dir a) (Node.file c) = false
  rw [show nodeSize (Node.dir a) = entriesSize a + 1 from by
    simp [nodeSize, Nat.add_comm]]
  rfl

/-- Two structure-and-content equal directories resolve every name to
related children. -/
theorem treeEqb_lookup {scs scs' : Entries}
    (h : treeEqb (Node.dir scs) (Node.dir scs') = true) (n : String) :
    (lookupChild scs n = none ∧ lookupChild scs' n = none)
    ∨ ∃ t t', lookupChild scs n = some t ∧ lookupChild scs' n = some t'
        ∧ treeEqb t t' = true := by
  rcases treeEqb_dir_iff.mp h with ⟨h1, h2⟩
  cases hs : findName scs n with
  | none =>
    left
    refine ⟨hs, ?_⟩
    apply findName_of_not_mem
    intro hmem
    obtain ⟨p, hp, hp1⟩ := List.mem_map.mp hmem
    have hin : p.1 ∈ scs.map Prod.fst := h2 p hp
    rw [hp1] at hin
    have := findName_isSome.mpr hin
    rw [hs] at this
    exact absurd this (by simp)
  | some t =>
    right
    obtain ⟨dn, hdn, ht⟩ := h1 (n, t) (findName_mem hs)
    exact ⟨t, dn, hs, hdn, ht⟩

theorem treeEqb_childIsFile {scs scs' : Entries}
    (h : treeEqb (Node.dir scs) (Node.dir scs') = true) (n : String) :
    childIsFile scs n = childIsFile scs' n := by
  unfold childIsFile
  rcases treeEqb_lookup h n with ⟨h1, h2⟩ | ⟨t, t', h1, h2, ht⟩
  · rw [h1, h2]
  · rw [h1, h2]
    cases t with
    | file c =>
      cases t' with
      | file c' => rfl
      | dir b => rw [treeEqb_file_dir] at ht; exact absurd ht (by simp)
    | dir a =>
      cases t' with
      | file c' => rw [treeEqb_dir_file] at ht; exact absurd ht (by simp)
      | dir b => rfl

theorem treeEqb_childIsDir {scs scs' : Entries}
    (h : treeEqb (Node.dir scs) (Node.dir scs') = true) (n : String) :
    childIsDir scs n = childIsDir scs' n := by
  unfold childIsDir
  rcases treeEqb_lookup h n with ⟨h1, h2⟩ | ⟨t, t', h1, h2, ht⟩
  · rw [h1, h2]
  · rw [h1, h2]
    cases t with
    | file c =>
      cases t' with
      | file c' => rfl
      | dir b => rw [treeEqb_file_dir] at ht; exact absurd ht (by simp)
    | dir a =>
      cases t' with
      | file c' => rw [treeEqb_dir_file] at ht; exact absurd ht (by simp)
      | dir b => rfl

/-- Structure-and-content equal well-formed directories carry the same
names, so they produce the same (sorted) `dircmp` listing. -/
theorem treeEqb_dirListing {scs scs' : Entries}
    (hnd : (scs.map Prod.fst).Nodup) (hnd' : (scs'.map Prod.fst).Nodup)
    (h : treeEqb (Node.dir scs) (Node.dir scs') = true) :
    dirListing scs = dirListing scs' := by
  apply dirListing_perm_inv
  rw [List.perm_ext_iff_of_nodup hnd hnd']
  intro n
  constructor
  · intro hn
    rcases treeEqb_lookup h n with ⟨h1, _⟩ | ⟨t, t', _, h2, _⟩
    · exfalso
      have hsome := findName_isSome.mpr hn
      have h1' : findName scs n = none := h1
      rw [h1'] at hsome
      exact absurd hsome (by simp)
    · have h2' : findName scs' n = some t' := h2
      exact findName_isSome.mp (by rw [h2']; rfl)
  · intro hn
    rcases treeEqb_lookup h n with ⟨_, h1⟩ | ⟨t, t', h2, _, _⟩
    · exfalso
      have hsome := findName_isSome.mpr hn
      have h1' : findName scs' n = none := h1
      rw [h1'] at hsome
      exact absurd hsome (by simp)
    · have h2' : findName scs n = some t := h2
      exact findName_isSome.mp (by rw [h2']; rfl)

theorem flatten_filterMap_congr {α β γ : Type} (l : List α) (f1 f2 : α → Option β)
    (g1 g2 : β → List γ)
    (h : ∀ x ∈ l, (f1 x = none ∧ f2 x = none)
        ∨ ∃ b1 b2, f1 x = some b1 ∧ f2 x = some b2 ∧ g1 b1 = g2 b2) :
    ((l.filterMap f1).map g1).flatten = ((l.filterMap f2).map g2).flatten := by
  induction l with
  | nil => rfl
  | cons x xs ihl =>
    have hrest := ihl (fun y hy => h y (List.mem_cons.mpr (Or.inr hy)))
    rcases h x (List.mem_cons_self x xs) with ⟨h1, h2⟩ | ⟨b1, b2, h1, h2, h3⟩
    · rw [List.filterMap_cons, List.filterMap_cons, h1, h2]
      exact hrest
    · rw [List.filterMap_cons, List.filterMap_cons, h1, h2, List.map_cons,
        List.map_cons, List.flatten_cons, List.flatten_cons, h3, hrest]

/-- Determinism up to directory-entry order, fuel version: representing
the same source and destination trees with differently ordered children
lists yields the identical action sequence, because `dircmp` sorts each
listing before partitioning. -/
theorem syncRecF_reorder : ∀ (f : Nat) (dry : Bool) (sp dp : List String)
    (s s' d d' : Node) (f' : Nat),
    nodeSize s ≤ f → nodeSize s' ≤ f' →
    wfNode s = true → wfNode s' = true → wfNode d = true → wfNode d' = true →
    treeEqb s s' = true → treeEqb d d' = true →
    (syncRecF f dry sp dp s d).2 = (syncRecF f' dry sp dp s' d').2 := by
  intro f
  induction f with
  | zero =>
    intro dry sp dp s s' d d' f' hb _ _ _ _ _ _ _
    have := nodeSize_pos s
    omega
  | succ f ih =>
    intro dry sp dp s s' d d' f' hb hb' hws hws' hwd hwd' hts htd
    cases f' with
    | zero =>
      have := nodeSize_pos s'
      omega
    | succ f' =>
      cases s with
      | file c =>
        cases s' with
        | dir scs' => rw [treeEqb_file_dir] at hts; exact absurd hts (by simp)
        | file c' =>
          rw [syncRecF_nondir _ _ _ _ (Or.inl ⟨c, rfl⟩),
            syncRecF_nondir _ _ _ _ (Or.inl ⟨c', rfl⟩)]
      | dir scs =>
        cases s' with
        | file c' => rw [treeEqb_dir_file] at hts; exact absurd hts (by simp)
        | dir scs' =>
          cases d with
          | file c =>
            cases d' with
            | dir dcs' => rw [treeEqb_file_dir] at htd; exact absurd htd (by simp)
            | file c' =>
              rw [syncRecF_nondir _ _ _ _ (Or.inr ⟨c, rfl⟩),
                syncRecF_nondir _ _ _ _ (Or.inr ⟨c', rfl⟩)]
          | dir dcs =>
            cases d' with
            | file c' => rw [treeEqb_dir_file] at htd; exact absurd htd (by simp)
            | dir dcs' =>
              obtain ⟨hnds, hcws⟩ := wfNode_dir_iff.mp hws
              obtain ⟨hnds', hcws'⟩ := wfNode_dir_iff.mp hws'
              obtain ⟨hndd, hcwd⟩ := wfNode_dir_iff.mp hwd
              obtain ⟨hndd', hcwd'⟩ := wfNode_dir_iff.mp hwd'
              have hlistS : dirListing scs = dirListing scs' :=
                treeEqb_dirListing hnds hnds' hts
              have hlistD : dirListing dcs = dirListing dcs' :=
                treeEqb_dirListing hndd hndd' htd
              have hLO : left_only scs dcs = left_only scs' dcs' := by
                unfold left_only
                rw [hlistS, hlistD]
              have hRO : right_only scs dcs = right_only scs' dcs' := by
                unfold right_only
                rw [hlistS, hlistD]
              have hCN : commonNames scs dcs = commonNames scs' dcs' := by
                unfold commonNames
                rw [hlistS, hlistD]
              have hCF : common_files scs dcs = common_files scs' dcs' := by
                unfold common_files
                rw [hCN]
                apply List.filter_congr
                intro n _
                rw [treeEqb_childIsFile hts n, treeEqb_childIsFile htd n]
              have hCD : common_dirs scs dcs = common_dirs scs' dcs' := by
                unfold common_dirs
                rw [hCN]
                apply List.filter_congr
                intro n _
                rw [treeEqb_childIsDir hts n, treeEqb_childIsDir htd n]
              rw [syncRecF_succ_dir, syncRecF_succ_dir]
              show syncLevelActs
                  (fun n sn dn => (syncRecF f dry (sp ++ [n]) (dp ++ [n]) sn dn).2)
                  sp dp scs dcs
                = syncLevelActs
                  (fun n sn dn => (syncRecF f' dry (sp ++ [n]) (dp ++ [n]) sn dn).2)
                  sp dp scs' dcs'
              rw [syncLevelActs_eq, syncLevelActs_eq]
              have hCA : copyActions sp dp scs dcs = copyActions sp dp scs' dcs' := by
                unfold copyActions
                rw [hLO]
                apply List.filterMap_congr
                intro n _
                rcases treeEqb_lookup hts n with ⟨h1, h2⟩ | ⟨t, t', h1, h2, ht⟩
                · rw [h1, h2]
                · rw [h1, h2]
                  cases t with
                  | file c =>
                    cases t' with
                    | file c' => rfl
                    | dir b => rw [treeEqb_file_dir] at ht; exact absurd ht (by simp)
                  | dir a =>
                    cases t' with
                    | file c' => rw [treeEqb_dir_file] at ht; exact absurd ht (by simp)
                    | dir b => rfl
              have hUA : updateActions sp dp scs dcs = updateActions sp dp scs' dcs' := by
                unfold updateActions
                rw [hCF]
                apply List.filterMap_congr
                intro n _
                rcases treeEqb_lookup hts n with ⟨h1, h2⟩ | ⟨t, t', h1, h2, ht⟩
                · rw [h1, h2]
                · rw [h1, h2]
                  rcases treeEqb_lookup htd n with ⟨g1, g2⟩ | ⟨u, u', g1, g2, hu⟩
                  · rw [g1, g2]
                    cases t <;> cases t' <;> rfl
                  · rw [g1, g2]
                    cases t with
                    | dir a =>
                      cases t' with
                      | file c' => rw [treeEqb_dir_file] at ht; exact absurd ht (by simp)
                      | dir b => cases u <;> cases u' <;> rfl
                    | file c1 =>
                      cases t' with
                      | dir b => rw [treeEqb_file_dir] at ht; exact absurd ht (by simp)
                      | file c1' =>
                        have hc1 : c1 = c1' := treeEqb_file_iff.mp ht
                        cases u with
                        | dir a =>
                          cases u' with
                          | file c2' => rw [treeEqb_dir_file] at hu; exact absurd hu (by simp)
                          | dir b => rfl
                        | file c2 =>
                          cases u' with
                          | dir b => rw [treeEqb_file_dir] at hu; exact absurd hu (by simp)
                          | file c2' =>
                            have hc2 : c2 = c2' := treeEqb_file_iff.mp hu
                            rw [hc1, hc2]
              have hRA : removeActions dp scs dcs = removeActions dp scs' dcs' := by
                unfold removeActions
                rw [hRO]
                apply List.filterMap_congr
                intro n _
                rcases treeEqb_lookup htd n with ⟨h1, h2⟩ | ⟨t, t', h1, h2, ht⟩
                · rw [h1, h2]
                · rw [h1, h2]
                  cases t with
                  | file c =>
                    cases t' with
                    | file c' => rfl
                    | dir b => rw [treeEqb_file_dir] at ht; exact absurd ht (by simp)
                  | dir a =>
                    cases t' with
                    | file c' => rw [treeEqb_dir_file] at ht; exact absurd ht (by simp)
                    | dir b => rfl
              rw [hCA, hUA, hRA]
              apply congrArg (fun x => copyActions sp dp scs' dcs'
                ++ updateActions sp dp scs' dcs' ++ removeActions dp scs' dcs' ++ x)
              unfold recPairs
              rw [← hCD]
              apply flatten_filterMap_congr
              intro n hn
              obtain ⟨hbn, hd1, hd2⟩ := mem_common_dirs.mp hn
              obtain ⟨a1, ha1⟩ := childIsDir_iff.mp hd1
              obtain ⟨b1, hb1⟩ := childIsDir_iff.mp hd2
              rcases treeEqb_lookup hts n with ⟨g1, _⟩ | ⟨t, t', hg1, hg2, hgt⟩
              · rw [ha1] at g1; exact absurd g1 (by simp)
              rcases treeEqb_lookup htd n with ⟨g1, _⟩ | ⟨u, u', hh1, hh2, hhu⟩
              · rw [hb1] at g1; exact absurd g1 (by simp)
              right
              refine ⟨(n, t, u), (n, t', u'), ?_, ?_, ?_⟩
              · rw [hg1, hh1]
                rfl
              · rw [hg2, hh2]
                rfl
              · show (syncRecF f dry (sp ++ [n]) (dp ++ [n]) t u).2
                  = (syncRecF f' dry (sp ++ [n]) (dp ++ [n]) t' u').2
                have hts2 : nodeSize t ≤ f := by
                  have := nodeSize_lookup hg1
                  simp only [nodeSize] at this hb
                  omega
                have hts2' : nodeSize t' ≤ f' := by
                  have := nodeSize_lookup hg2
                  simp only [nodeSize] at this hb'
                  omega
                apply ih dry (sp ++ [n]) (dp ++ [n]) t t' u u' f' hts2 hts2'
                · exact hcws _ (findName_mem hg1)
                · exact hcws' _ (findName_mem hg2)
                · exact hcwd _ (findName_mem hh1)
                · exact hcwd' _ (findName_mem hh2)
                · exact hgt
                · exact hhu

theorem pathExtends_nil (p : List String) : pathExtends [] p := ⟨p, rfl⟩

theorem pathExtends_cons {n : String} {p q : List String} :
    pathExtends (n :: p) (n :: q) ↔ pathExtends p q := by
  constructor
  · rintro ⟨r, hr⟩
    exact ⟨r, by simpa using hr⟩
  · rintro ⟨r, hr⟩
    exact ⟨r, by simp [hr]⟩

theorem lookupPath_dir_cons (cs : Entries) (n : String) (ps : List String) :
    lookupPath (Node.dir cs) (n :: ps)
      = match lookupChild cs n with
        | some c => lookupPath c ps
        | none => none := rfl

theorem lookupPath_single (cs : Entries) (n : String) :
    lookupPath (Node.dir cs) [n] = lookupChild cs n := by
  rw [lookupPath_dir_cons]
  cases hl : lookupChild cs n with
  | none => rfl
  | some c => cases c <;> rfl

/-- Replacing the subtree at one path does not disturb lookups at an
incomparable path. -/
theorem lookupPath_setPath_disjoint : ∀ (q p : List String) (fs t : Node),
    ¬ pathExtends p q → ¬ pathExtends q p →
    lookupPath (setPath fs q t) p = lookupPath fs p := by
  intro q
  induction q with
  | nil => intro p fs t _ h2; exact absurd (pathExtends_nil p) h2
  | cons m q' ihq =>
    intro p fs t h1 h2
    cases p with
    | nil => exact absurd (pathExtends_nil (m :: q')) h1
    | cons n p' =>
      cases fs with
      | file c => rfl
      | dir cs =>
        rw [show setPath (Node.dir cs) (m :: q') t
          = Node.dir (mapVals (fun mm v => if mm == m then setPath v q' t else v) cs)
          from rfl]
        rw [lookupPath_dir_cons, lookupPath_dir_cons, lookupChild_eq_findName,
          lookupChild_eq_findName, findName_mapVals]
        by_cases hnm : n = m
        · subst hnm
          cases hf : findName cs n with
          | none => rfl
          | some c =>
            simp only [Option.map_some', beq_self_eq_true, if_true]
            apply ihq
            · exact fun hx => h1 (pathExtends_cons.mpr hx)
            · exact fun hx => h2 (pathExtends_cons.mpr hx)
        · cases hf : findName cs n with
          | none => rfl
          | some c =>
            simp only [Option.map_some']
            rw [if_neg (by simpa using hnm)]

/-- An entry in none of the four partitions is untouched by a level in
either mode. -/
theorem syncLC_skipped {recurse : String → Node → Node → Node}
    {scs dcs : Entries} {n : String} (dry : Bool)
    (h1 : n ∉ left_only scs dcs) (h2 : n ∉ right_only scs dcs)
    (h3 : n ∉ common_files scs dcs) (h4 : n ∉ common_dirs scs dcs) :
    findName (syncLevelChildren recurse dry scs dcs) n = findName dcs n := by
  cases dry with
  | false => exact syncLC_untouched h1 h2 h3 h4
  | true =>
    have hRS := @findName_recResults_none recurse scs dcs _ h4
    rw [syncLevelChildren_true, findName_applyRecs]
    cases hdn : findName dcs n with
    | none => rfl
    | some v =>
      simp only [Option.map_some', lookupChild_eq_findName, hRS]

theorem mem_copyActions_shape {sp dp : List String} {scs dcs : Entries} {a : SyncAction}
    (h : a ∈ copyActions sp dp scs dcs) :
    ∃ n ∈ left_only scs dcs,
      a = SyncAction.copyDir (sp ++ [n]) (dp ++ [n])
      ∨ a = SyncAction.copyFile (sp ++ [n]) (dp ++ [n]) := by
  obtain ⟨n, hn, he⟩ := List.mem_filterMap.mp h
  refine ⟨n, hn, ?_⟩
  cases hl : lookupChild scs n with
  | none => rw [hl] at he; exact absurd he (by simp)
  | some t =>
    rw [hl] at he
    cases t with
    | file c => exact Or.inr (Option.some_inj.mp he).symm
    | dir cs2 => exact Or.inl (Option.some_inj.mp he).symm

theorem mem_updateActions_shape {sp dp : List String} {scs dcs : Entries} {a : SyncAction}
    (h : a ∈ updateActions sp dp scs dcs) :
    ∃ n ∈ common_files scs dcs, ∃ c1 c2,
      lookupChild scs n = some (Node.file c1) ∧ lookupChild dcs n = some (Node.file c2)
      ∧ _files_are_equal c1 c2 = false
      ∧ a = SyncAction.update (dp ++ [n]) (sp ++ [n]) := by
  obtain ⟨n, hn, he⟩ := List.mem_filterMap.mp h
  refine ⟨n, hn, ?_⟩
  cases hl : lookupChild scs n with
  | none => rw [hl] at he; exact absurd he (by simp)
  | some t =>
    rw [hl] at he
    cases hl2 : lookupChild dcs n with
    | none =>
      rw [hl2] at he
      cases t <;> exact absurd he (by simp)
    | some t2 =>
      rw [hl2] at he
      cases t with
      | dir cs2 => cases t2 <;> exact absurd he (by simp)
      | file c1 =>
        cases t2 with
        | dir cs3 => exact absurd he (by simp)
        | file c2 =>
          by_cases heq : _files_are_equal c1 c2 = true
          · exfalso
            have hcon : (none : Option SyncAction) = some a := by
              rw [← he]
              simp [heq]
            exact Option.noConfusion hcon
          · have hupd : some (SyncAction.update (dp ++ [n]) (sp ++ [n])) = some a := by
              rw [← he]
              simp [heq]
            exact ⟨c1, c2, rfl, rfl, by simpa using heq, (Option.some_inj.mp hupd).symm⟩

theorem mem_removeActions_shape {dp : List String} {scs dcs : Entries} {a : SyncAction}
    (h : a ∈ removeActions dp scs dcs) :
    ∃ n ∈ right_only scs dcs,
      a = SyncAction.removeDir (dp ++ [n]) ∨ a = SyncAction.removeFile (dp ++ [n]) := by
  obtain ⟨n, hn, he⟩ := List.mem_filterMap.mp h
  refine ⟨n, hn, ?_⟩
  cases hl : lookupChild dcs n with
  | none => rw [hl] at he; exact absurd he (by simp)
  | some t =>
    rw [hl] at he
    cases t with
    | file c => exact Or.inr (Option.some_inj.mp he).symm
    | dir cs2 => exact Or.inl (Option.some_inj.mp he).symm

/-- A common file whose two sides hold the same bytes triggers no
`update` action at its path, at any level of the recursion. -/
theorem no_update_at_equal_file : ∀ (fuel : Nat) (dry : Bool) (sp dp : List String)
    (scs dcs : Entries) (n : String) (c : List Nat) (s : List String),
    lookupChild scs n = some (Node.file c) → lookupChild dcs n = some (Node.file c) →
    SyncAction.update (dp ++ [n]) s ∉ (syncRecF fuel dry sp dp (Node.dir scs) (Node.dir dcs)).2 := by
  intro fuel dry sp dp scs dcs n c s hsn hdn ha
  cases fuel with
  | zero => exact absurd ha (List.not_mem_nil _)
  | succ fuel =>
    have ha' : SyncAction.update (dp ++ [n]) s ∈ syncLevelActs
        (fun m sn dn => (syncRecF fuel dry (sp ++ [m]) (dp ++ [m]) sn dn).2)
        sp dp scs dcs := ha
    rw [syncLevelActs_eq] at ha'
    rcases List.mem_append.mp ha' with h3 | hrec
    · rcases List.mem_append.mp h3 with h2 | hr
      · rcases List.mem_append.mp h2 with hc | hu
        · obtain ⟨m, _, hshape⟩ := mem_copyActions_shape hc
          rcases hshape with he | he <;> exact SyncAction.noConfusion he
        · obtain ⟨m, _, c1, c2, hm1, hm2, hne, he⟩ := mem_updateActions_shape hu
          have hm : m = n := by
            have h1 := ((SyncAction.update.injEq _ _ _ _).mp he).1
            rw [List.append_cancel_left_eq] at h1
            exact ((List.cons.injEq _ _ _ _).mp h1).1.symm
          subst hm
          rw [hsn] at hm1
          rw [hdn] at hm2
          have hc1 : c1 = c := (Node.file.injEq _ _).mp (Option.some_inj.mp hm1).symm
          have hc2 : c2 = c := (Node.file.injEq _ _).mp (Option.some_inj.mp hm2).symm
          rw [hc1, hc2] at hne
          rw [files_are_equal_refl c] at hne
          exact Bool.noConfusion hne
      · obtain ⟨m, _, hshape⟩ := mem_removeActions_shape hr
        rcases hshape with he | he <;> exact SyncAction.noConfusion he
    · obtain ⟨l, hl, hal⟩ := List.mem_flatten.mp hrec
      obtain ⟨q, hq, rfl⟩ := List.mem_map.mp hl
      obtain ⟨hcd, hqsn, hqdn⟩ := mem_recPairs.mp hq
      obtain ⟨_, hd1, hd2⟩ := mem_common_dirs.mp hcd
      obtain ⟨a1, ha1⟩ := childIsDir_iff.mp hd1
      obtain ⟨b1, hb1⟩ := childIsDir_iff.mp hd2
      have hq1 : q.2.1 = Node.dir a1 := by
        rw [hqsn] at ha1
        exact Option.some_inj.mp ha1
      have hq2 : q.2.2 = Node.dir b1 := by
        rw [hqdn] at hb1
        exact Option.some_inj.mp hb1
      rw [hq1, hq2] at hal
      obtain ⟨m, r, hw, _⟩ := syncRecF_writes fuel dry (sp ++ [q.1]) (dp ++ [q.1])
        a1 b1 _ hal
      have hw' : dp ++ [n] = dp ++ q.1 :: m :: r := by
        have : actionWrites (SyncAction.update (dp ++ [n]) s) = dp ++ [n] := rfl
        rw [this] at hw
        rw [hw, List.append_assoc]
        rfl
      rw [List.append_cancel_left_eq] at hw'
      have hlen := congrArg List.length hw'
      simp at hlen

theorem sync_recursive_dir (dry : Bool) (sp dp : List String) (scs dcs : Entries) :
    _sync_recursive dry sp dp (Node.dir scs) (Node.dir dcs)
      = (Node.dir (syncLevelChildren
            (fun n sn dn => (syncRecF (entriesSize scs) dry (sp ++ [n]) (dp ++ [n]) sn dn).1)
            dry scs dcs),
         syncLevelActs
            (fun n sn dn => (syncRecF (entriesSize scs) dry (sp ++ [n]) (dp ++ [n]) sn dn).2)
            sp dp scs dcs) := by
  unfold _sync_recursive
  rw [show nodeSize (Node.dir scs) = entriesSize scs + 1 from by
    simp [nodeSize, Nat.add_comm]]
  exact syncRecF_succ_dir _ _ _ _ _ _

/-- C1, counterexample: the claim fails as stated.  Because the code runs
`filecmp.dircmp` with its default ignore list, a source tree containing
an entry named `.git` is not mirrored: one non-dry run against an empty
destination leaves the destination empty, and the content-and-structure
comparison reports source and destination different. -/
theorem C1_counterexample :
    (_sync_recursive false [] [] (Node.dir [(".git", Node.file [49])]) (Node.dir [])).1
        = Node.dir []
    ∧ treeEqb (Node.dir [(".git", Node.file [49])]) (Node.dir []) = false :=
  ⟨rfl, rfl⟩

/-- C1 (amended): for well-formed source and destination directory trees
in which no entry anywhere bears a name on `dircmp`'s default hide or
ignore lists, and no name common to both sides is a file on one side and
a directory on the other at any level the recursion reaches, one call of
`sync_directories(S, D, dry_run=False)`'s recursive core makes the
destination tree byte-for-byte and structurally equal to the source
tree. -/
theorem C1_convergence_amended (sp dp : List String) (scs dcs : Entries)
    (hws : wfNode (Node.dir scs) = true) (hwd : wfNode (Node.dir dcs) = true)
    (hbs : noBanned (Node.dir scs) = true) (hbd : noBanned (Node.dir dcs) = true)
    (hcp : compat (Node.dir scs) (Node.dir dcs) = true) :
    treeEqb (Node.dir scs)
      ((_sync_recursive false sp dp (Node.dir scs) (Node.dir dcs)).1) = true :=
  syncRecF_converges (nodeSize (Node.dir scs)) sp dp scs dcs (le_refl _) hws hwd hbs hbd hcp

theorem C1_convergence_amended_witness :
    (wfNode (Node.dir [("a.txt", Node.file [104, 105])]) = true
      ∧ wfNode (Node.dir [("b", Node.file [1])]) = true
      ∧ noBanned (Node.dir [("a.txt", Node.file [104, 105])]) = true
      ∧ noBanned (Node.dir [("b", Node.file [1])]) = true
      ∧ compat (Node.dir [("a.txt", Node.file [104, 105])])
          (Node.dir [("b", Node.file [1])]) = true)
    ∧ treeEqb (Node.dir [("a.txt", Node.file [104, 105])])
        ((_sync_recursive false [] [] (Node.dir [("a.txt", Node.file [104, 105])])
          (Node.dir [("b", Node.file [1])])).1) = true :=
  ⟨⟨rfl, rfl, rfl, rfl, rfl⟩,
    C1_convergence_amended [] [] _ _ rfl rfl rfl rfl rfl⟩

/-- C2: dry-run purity: with `dry_run=True` every mutating call is behind
the `if dry_run` guards, so the destination tree after the call is
byte-for-byte and structurally the input destination tree (stated for
well-formed destinations, i.e. no directory naming the same child
twice). -/
theorem C2_dry_run_purity (sp dp : List String) (s d : Node)
    (hw : wfNode d = true) :
    (_sync_recursive true sp dp s d).1 = d :=
  syncRecF_dry_pure (nodeSize s) sp dp s d hw

theorem C2_dry_run_purity_witness :
    wfNode (Node.dir [("y", Node.file [2])]) = true
    ∧ (_sync_recursive true [] [] (Node.dir [("x", Node.file [1])])
        (Node.dir [("y", Node.file [2])])).1 = Node.dir [("y", Node.file [2])] :=
  ⟨rfl, C2_dry_run_purity [] [] _ _ rfl⟩

/-- C3: precondition validation: if the (resolved) source path is not an
existing directory, `sync_directories` fails with the `ValueError`
message naming the source path; otherwise if the (resolved) destination
path is not an existing directory — in particular when it is a file — it
fails with the message naming the destination path.  Both checks run
before `_sync_recursive`, so an error result carries no mutation at
all. -/
theorem C3_validation (fs : Node) (src dst : List String) (dry : Bool) :
    (isDirAt fs src = false →
      sync_directories fs src dst dry
        = Except.error ("Source path " ++ renderPath src ++ " is not a directory."))
    ∧ (isDirAt fs src = true → isDirAt fs dst = false →
      sync_directories fs src dst dry
        = Except.error ("Destination path " ++ renderPath dst ++ " is not a directory.")) := by
  constructor
  · intro h
    unfold sync_directories
    rw [if_pos h]
  · intro h1 h2
    unfold sync_directories
    rw [if_neg (by rw [h1]; simp), if_pos h2]

theorem C3_validation_witness :
    isDirAt (Node.dir [("s", Node.dir []), ("f", Node.file [])]) ["s"] = true
    ∧ isDirAt (Node.dir [("s", Node.dir []), ("f", Node.file [])]) ["f"] = false
    ∧ sync_directories (Node.dir [("s", Node.dir []), ("f", Node.file [])])
        ["s"] ["f"] false
      = Except.error "Destination path /f is not a directory." :=
  ⟨rfl, rfl,
    (C3_validation (Node.dir [("s", Node.dir []), ("f", Node.file [])]) ["s"] ["f"] false).2
      rfl rfl⟩

/-- C4: `_files_are_equal` compares sizes first, then contents in
8-KiB chunks; two equal-size files differing in the last byte are
classified unequal, two identical files are classified equal, and an
identical common file pair never yields an `update` action at its
path. -/
theorem C4_files_equal :
    (∀ (l : List Nat) (b1 b2 : Nat), b1 ≠ b2 →
      _files_are_equal (l ++ [b1]) (l ++ [b2]) = false)
    ∧ (∀ c : List Nat, _files_are_equal c c = true)
    ∧ (∀ (dry : Bool) (sp dp : List String) (scs dcs : Entries) (n : String)
        (c : List Nat) (s : List String),
        lookupChild scs n = some (Node.file c) →
        lookupChild dcs n = some (Node.file c) →
        SyncAction.update (dp ++ [n]) s
          ∉ (_sync_recursive dry sp dp (Node.dir scs) (Node.dir dcs)).2) := by
  refine ⟨?_, files_are_equal_refl, ?_⟩
  · intro l b1 b2 hne
    cases h : _files_are_equal (l ++ [b1]) (l ++ [b2]) with
    | false => rfl
    | true =>
      exfalso
      have heq := (files_are_equal_iff _ _).mp h
      rw [List.append_cancel_left_eq] at heq
      exact hne ((List.cons.injEq _ _ _ _).mp heq).1
  · intro dry sp dp scs dcs n c s h1 h2
    exact no_update_at_equal_file (nodeSize (Node.dir scs)) dry sp dp scs dcs n c s h1 h2

theorem C4_files_equal_witness :
    (1 : Nat) ≠ 2
    ∧ _files_are_equal [9, 1] [9, 2] = false
    ∧ _files_are_equal [5, 6] [5, 6] = true
    ∧ lookupChild [("x", Node.file [7])] "x" = some (Node.file [7])
    ∧ SyncAction.update (([] : List String) ++ ["x"]) ["x"]
        ∉ (_sync_recursive false [] [] (Node.dir [("x", Node.file [7])])
            (Node.dir [("x", Node.file [7])])).2 :=
  ⟨by decide, C4_files_equal.1 [9] 1 2 (by decide), C4_files_equal.2.1 [5, 6], rfl,
    C4_files_equal.2.2 false [] [] _ _ "x" [7] ["x"] rfl rfl⟩

/-- C5: idempotence: running the synchronisation twice in sequence
(non-dry) with an unchanged source emits zero actions on the second
run. -/
theorem C5_idempotent (sp dp : List String) (s d : Node) :
    (_sync_recursive false sp dp s ((_sync_recursive false sp dp s d).1)).2 = [] :=
  syncRecF_idem (nodeSize s) sp dp sp dp s d (nodeSize s) (le_refl _) (le_refl _)

/-- C6: dry-run/real-run action equivalence: the dry run emits exactly
the same classified action sequence (same count, same classifications,
same paths, same order) as the non-dry run on the same trees. -/
theorem C6_dry_real_actions (sp dp : List String) (s d : Node) :
    (_sync_recursive true sp dp s d).2 = (_sync_recursive false sp dp s d).2 :=
  syncRecF_acts_dry_eq (nodeSize s) sp dp s d

/-- C7: determinism and stable ordering: each of the four partitions at
every directory level is sorted in the fixed code-point (lexicographic)
name order, and any two runs over equal trees — equal in content and
structure, regardless of the order directory entries are listed in —
produce the same action sequence. -/
theorem C7_determinism :
    (∀ scs dcs : Entries,
      List.Sorted (fun a b => nameLe a b = true) (left_only scs dcs)
      ∧ List.Sorted (fun a b => nameLe a b = true) (common_files scs dcs)
      ∧ List.Sorted (fun a b => nameLe a b = true) (right_only scs dcs)
      ∧ List.Sorted (fun a b => nameLe a b = true) (common_dirs scs dcs))
    ∧ (∀ (dry : Bool) (sp dp : List String) (s s' d d' : Node),
        wfNode s = true → wfNode s' = true → wfNode d = true → wfNode d' = true →
        treeEqb s s' = true → treeEqb d d' = true →
        (_sync_recursive dry sp dp s d).2 = (_sync_recursive dry sp dp s' d').2) := by
  constructor
  · intro scs dcs
    exact ⟨List.Sorted.filter _ (dirListing_sorted scs),
      List.Sorted.filter _ (List.Sorted.filter _ (dirListing_sorted scs)),
      List.Sorted.filter _ (dirListing_sorted dcs),
      List.Sorted.filter _ (List.Sorted.filter _ (dirListing_sorted scs))⟩
  · intro dry sp dp s s' d d' h1 h2 h3 h4 h5 h6
    exact syncRecF_reorder (nodeSize s) dry sp dp s s' d d' (nodeSize s')
      (le_refl _) (le_refl _) h1 h2 h3 h4 h5 h6

theorem C7_determinism_witness :
    (wfNode (Node.dir [("a", Node.file [1]), ("b", Node.file [2])]) = true
      ∧ wfNode (Node.dir [("b", Node.file [2]), ("a", Node.file [1])]) = true
      ∧ wfNode (Node.dir []) = true
      ∧ treeEqb (Node.dir [("a", Node.file [1]), ("b", Node.file [2])])
          (Node.dir [("b", Node.file [2]), ("a", Node.file [1])]) = true
      ∧ treeEqb (Node.dir []) (Node.dir []) = true)
    ∧ (_sync_recursive false [] [] (Node.dir [("a", Node.file [1]), ("b", Node.file [2])])
        (Node.dir [])).2
      = (_sync_recursive false [] [] (Node.dir [("b", Node.file [2]), ("a", Node.file [1])])
        (Node.dir [])).2 :=
  ⟨⟨rfl, rfl, rfl, rfl, rfl⟩,
    C7_determinism.2 false [] [] _ _ _ _ rfl rfl rfl rfl rfl rfl⟩

/-- C8: ignore-list blind spot: a child name on `filecmp.dircmp`'s
default ignore list never appears in any of the four partitions, the
destination entry of that name is left exactly as it was (in either
mode), and no emitted action line targets that entry's destination
path. -/
theorem C8_ignore_blind_spot (dry : Bool) (sp dp : List String) (scs dcs : Entries)
    (n : String) (hn : n ∈ defaultIgnores) :
    (n ∉ left_only scs dcs ∧ n ∉ common_files scs dcs ∧ n ∉ right_only scs dcs
      ∧ n ∉ common_dirs scs dcs)
    ∧ lookupPath ((_sync_recursive dry sp dp (Node.dir scs) (Node.dir dcs)).1) [n]
        = lookupChild dcs n
    ∧ (∀ a ∈ (_sync_recursive dry sp dp (Node.dir scs) (Node.dir dcs)).2,
        actionWrites a ≠ dp ++ [n]) := by
  have hb : n ∈ bannedNames := List.mem_append.mpr (Or.inr hn)
  have h1 : n ∉ left_only scs dcs := fun hc => (mem_left_only.mp hc).2.1 hb
  have h2 : n ∉ common_files scs dcs := fun hc => (mem_common_files.mp hc).1 hb
  have h3 : n ∉ right_only scs dcs := fun hc => (mem_right_only.mp hc).2.1 hb
  have h4 : n ∉ common_dirs scs dcs := fun hc => (mem_common_dirs.mp hc).1 hb
  refine ⟨⟨h1, h2, h3, h4⟩, ?_, ?_⟩
  · rw [sync_recursive_dir]
    show lookupPath (Node.dir (syncLevelChildren
        (fun m sn dn => (syncRecF (entriesSize scs) dry (sp ++ [m]) (dp ++ [m]) sn dn).1)
        dry scs dcs)) [n] = lookupChild dcs n
    rw [lookupPath_single]
    exact syncLC_skipped dry h1 h3 h2 h4
  · intro a ha hwa
    obtain ⟨m, r, hw, hpart⟩ := syncRecF_writes (nodeSize (Node.dir scs)) dry sp dp
      scs dcs a ha
    rw [hwa] at hw
    rw [List.append_cancel_left_eq] at hw
    obtain ⟨hm, hr⟩ := (List.cons.injEq _ _ _ _).mp hw
    rcases hpart with hp | hp | hp | hp
    · exact h1 (hm ▸ hp)
    · exact h2 (hm ▸ hp)
    · exact h3 (hm ▸ hp)
    · exact h4 (hm ▸ hp)

theorem C8_ignore_blind_spot_witness :
    ".git" ∈ defaultIgnores
    ∧ ((".git" ∉ left_only [(".git", Node.file [1])] [(".git", Node.dir [])]
        ∧ ".git" ∉ common_files [(".git", Node.file [1])] [(".git", Node.dir [])]
        ∧ ".git" ∉ right_only [(".git", Node.file [1])] [(".git", Node.dir [])]
        ∧ ".git" ∉ common_dirs [(".git", Node.file [1])] [(".git", Node.dir [])])
      ∧ lookupPath ((_sync_recursive false ["s"] ["d"] (Node.dir [(".git", Node.file [1])])
          (Node.dir [(".git", Node.dir [])])).1) [".git"]
        = lookupChild [(".git", Node.dir [])] ".git"
      ∧ (∀ a ∈ (_sync_recursive false ["s"] ["d"] (Node.dir [(".git", Node.file [1])])
          (Node.dir [(".git", Node.dir [])])).2,
        actionWrites a ≠ ["d"] ++ [".git"])) :=
  ⟨by decide, C8_ignore_blind_spot false ["s"] ["d"] _ _ ".git" (by decide)⟩

/-- C9: type-mismatch entries are skipped: a name present in both
directories but as a file on one side and a directory on the other lands
in `dircmp.common_funny`, which the code never iterates — it is in none
of the four partitions, the destination entry stays exactly as it was,
and no emitted action line targets that entry's destination path. -/
theorem C9_type_mismatch_skipped (dry : Bool) (sp dp : List String) (scs dcs : Entries)
    (n : String)
    (hmm : (childIsFile scs n = true ∧ childIsDir dcs n = true)
      ∨ (childIsDir scs n = true ∧ childIsFile dcs n = true)) :
    (n ∉ left_only scs dcs ∧ n ∉ common_files scs dcs ∧ n ∉ right_only scs dcs
      ∧ n ∉ common_dirs scs dcs)
    ∧ lookupPath ((_sync_recursive dry sp dp (Node.dir scs) (Node.dir dcs)).1) [n]
        = lookupChild dcs n
    ∧ (∀ a ∈ (_sync_recursive dry sp dp (Node.dir scs) (Node.dir dcs)).2,
        actionWrites a ≠ dp ++ [n]) := by
  have hs : n ∈ scs.map Prod.fst := by
    rcases hmm with ⟨hf, _⟩ | ⟨hdd, _⟩
    · exact mem_of_childIsFile hf
    · exact mem_of_childIsDir hdd
  have hd : n ∈ dcs.map Prod.fst := by
    rcases hmm with ⟨_, hdd⟩ | ⟨_, hf⟩
    · exact mem_of_childIsDir hdd
    · exact mem_of_childIsFile hf
  have h1 : n ∉ left_only scs dcs := fun hc => (mem_left_only.mp hc).2.2 hd
  have h3 : n ∉ right_only scs dcs := fun hc => (mem_right_only.mp hc).2.2 hs
  have h2 : n ∉ common_files scs dcs := by
    intro hc
    rcases hmm with ⟨hf, hdd⟩ | ⟨hdd, hf⟩
    · have hx := (mem_common_files.mp hc).2.2
      obtain ⟨b, hbb⟩ := childIsDir_iff.mp hdd
      rw [not_childIsFile_of_dir hbb] at hx
      exact Bool.noConfusion hx
    · have hx := (mem_common_files.mp hc).2.1
      obtain ⟨b, hbb⟩ := childIsDir_iff.mp hdd
      rw [not_childIsFile_of_dir hbb] at hx
      exact Bool.noConfusion hx
  have h4 : n ∉ common_dirs scs dcs := by
    intro hc
    rcases hmm with ⟨hf, hdd⟩ | ⟨hdd, hf⟩
    · have hx := (mem_common_dirs.mp hc).2.1
      obtain ⟨cc, hcc⟩ := childIsFile_iff.mp hf
      rw [not_childIsDir_of_file hcc] at hx
      exact Bool.noConfusion hx
    · have hx := (mem_common_dirs.mp hc).2.2
      obtain ⟨cc, hcc⟩ := childIsFile_iff.mp hf
      rw [not_childIsDir_of_file hcc] at hx
      exact Bool.noConfusion hx
  refine ⟨⟨h1, h2, h3, h4⟩, ?_, ?_⟩
  · rw [sync_recursive_dir]
    show lookupPath (Node.dir (syncLevelChildren
        (fun m sn dn => (syncRecF (entriesSize scs) dry (sp ++ [m]) (dp ++ [m]) sn dn).1)
        dry scs dcs)) [n] = lookupChild dcs n
    rw [lookupPath_single]
    exact syncLC_skipped dry h1 h3 h2 h4
  · intro a ha hwa
    obtain ⟨m, r, hw, hpart⟩ := syncRecF_writes (nodeSize (Node.dir scs)) dry sp dp
      scs dcs a ha
    rw [hwa] at hw
    rw [List.append_cancel_left_eq] at hw
    obtain ⟨hm, hr⟩ := (List.cons.injEq _ _ _ _).mp hw
    rcases hpart with hp | hp | hp | hp
    · exact h1 (hm ▸ hp)
    · exact h2 (hm ▸ hp)
    · exact h3 (hm ▸ hp)
    · exact h4 (hm ▸ hp)

theorem C9_type_mismatch_skipped_witness :
    (childIsFile [("x", Node.file [7])] "x" = true
      ∧ childIsDir [("x", Node.dir [("z", Node.file [9])])] "x" = true)
    ∧ (("x" ∉ left_only [("x", Node.file [7])] [("x", Node.dir [("z", Node.file [9])])]
        ∧ "x" ∉ common_files [("x", Node.file [7])] [("x", Node.dir [("z", Node.file [9])])]
        ∧ "x" ∉ right_only [("x", Node.file [7])] [("x", Node.dir [("z", Node.file [9])])]
        ∧ "x" ∉ common_dirs [("x", Node.file [7])] [("x", Node.dir [("z", Node.file [9])])])
      ∧ lookupPath ((_sync_recursive false [] [] (Node.dir [("x", Node.file [7])])
          (Node.dir [("x", Node.dir [("z", Node.file [9])])])).1) ["x"]
        = lookupChild [("x", Node.dir [("z", Node.file [9])])] "x"
      ∧ (∀ a ∈ (_sync_recursive false [] [] (Node.dir [("x", Node.file [7])])
          (Node.dir [("x", Node.dir [("z", Node.file [9])])])).2,
        actionWrites a ≠ [] ++ ["x"])) :=
  ⟨⟨rfl, rfl⟩,
    C9_type_mismatch_skipped false [] [] _ _ "x" (Or.inl ⟨rfl, rfl⟩)⟩

/-- C10: the source tree is read-only: every emitted action's mutation
target lies strictly below the destination root, and when the source and
destination paths are incomparable (neither lies below the other), the
source subtree of the filesystem after `sync_directories` succeeds is
exactly what it was before. -/
theorem C10_source_readonly :
    (∀ (dry : Bool) (sp dp : List String) (s d : Node),
      ∀ a ∈ (_sync_recursive dry sp dp s d).2, pathExtends dp (actionWrites a))
    ∧ (∀ (fs : Node) (src dst : List String) (dry : Bool) (fs2 : Node)
        (acts : List SyncAction),
        ¬ pathExtends src dst → ¬ pathExtends dst src →
        sync_directories fs src dst dry = Except.ok (fs2, acts) →
        lookupPath fs2 src = lookupPath fs src) := by
  constructor
  · intro dry sp dp s d a ha
    cases s with
    | file c =>
      rw [show _sync_recursive dry sp dp (Node.file c) d = (d, []) from by
        unfold _sync_recursive
        exact syncRecF_nondir 0 dry sp dp (Or.inl ⟨c, rfl⟩)] at ha
      exact absurd ha (List.not_mem_nil a)
    | dir scs =>
      cases d with
      | file c =>
        rw [show _sync_recursive dry sp dp (Node.dir scs) (Node.file c)
            = (Node.file c, []) from by
          unfold _sync_recursive
          rw [show nodeSize (Node.dir scs) = entriesSize scs + 1 from by
            simp [nodeSize, Nat.add_comm]]
          exact syncRecF_nondir _ dry sp dp (Or.inr ⟨c, rfl⟩)] at ha
        exact absurd ha (List.not_mem_nil a)
      | dir dcs =>
        obtain ⟨m, r, hw, _⟩ := syncRecF_writes (nodeSize (Node.dir scs)) dry sp dp
          scs dcs a ha
        exact ⟨m :: r, hw⟩
  · intro fs src dst dry fs2 acts hnd1 hnd2 heq
    unfold sync_directories at heq
    by_cases hsrc : isDirAt fs src = false
    · rw [if_pos hsrc] at heq
      exact Except.noConfusion heq
    · rw [if_neg hsrc] at heq
      by_cases hdst : isDirAt fs dst = false
      · rw [if_pos hdst] at heq
        exact Except.noConfusion heq
      · rw [if_neg hdst] at heq
        cases hls : lookupPath fs src with
        | none =>
          rw [hls] at heq
          cases hld : lookupPath fs dst with
          | none =>
            rw [hld] at heq
            have heq' : Except.ok (ε := String) (fs, ([] : List SyncAction))
                = Except.ok (fs2, acts) := heq
            have hp := Except.ok.inj heq'
            rw [← ((Prod.mk.injEq _ _ _ _).mp hp).1]
            exact hls
          | some dv =>
            rw [hld] at heq
            have heq' : Except.ok (ε := String) (fs, ([] : List SyncAction))
                = Except.ok (fs2, acts) := heq
            have hp := Except.ok.inj heq'
            rw [← ((Prod.mk.injEq _ _ _ _).mp hp).1]
            exact hls
        | some sv =>
          cases hld : lookupPath fs dst with
          | none =>
            rw [hls, hld] at heq
            have heq' : Except.ok (ε := String) (fs, ([] : List SyncAction))
                = Except.ok (fs2, acts) := heq
            have hp := Except.ok.inj heq'
            rw [← ((Prod.mk.injEq _ _ _ _).mp hp).1]
            exact hls
          | some dv =>
            rw [hls, hld] at heq
            have heq' : Except.ok (ε := String)
                (setPath fs dst (_sync_recursive dry src dst sv dv).1,
                  (_sync_recursive dry src dst sv dv).2)
                = Except.ok (fs2, acts) := heq
            have hp := Except.ok.inj heq'
            have hfs2 : setPath fs dst (_sync_recursive dry src dst sv dv).1 = fs2 :=
              ((Prod.mk.injEq _ _ _ _).mp hp).1
            rw [← hfs2, lookupPath_setPath_disjoint dst src fs _ hnd1 hnd2]
            exact hls

theorem C10_source_readonly_witness :
    (SyncAction.copyFile ["s", "f"] ["d", "f"]
        ∈ (_sync_recursive false ["s"] ["d"] (Node.dir [("f", Node.file [1])])
            (Node.dir [])).2
      ∧ pathExtends ["d"] (actionWrites (SyncAction.copyFile ["s", "f"] ["d", "f"])))
    ∧ (¬ pathExtends ["s"] ["d"] ∧ ¬ pathExtends ["d"] ["s"]
      ∧ sync_directories
          (Node.dir [("s", Node.dir [("f", Node.file [1])]), ("d", Node.dir [])])
          ["s"] ["d"] false
        = Except.ok (Node.dir [("s", Node.dir [("f", Node.file [1])]),
            ("d", Node.dir [("f", Node.file [1])])],
            [SyncAction.copyFile ["s", "f"] ["d", "f"]])
      ∧ lookupPath (Node.dir [("s", Node.dir [("f", Node.file [1])]),
            ("d", Node.dir [("f", Node.file [1])])]) ["s"]
        = lookupPath (Node.dir [("s", Node.dir [("f", Node.file [1])]),
            ("d", Node.dir [])]) ["s"]) := by
  have hnd1 : ¬ pathExtends ["s"] ["d"] := by
    rintro ⟨r, hr⟩
    injection hr with ha _
    exact absurd ha (by decide)
  have hnd2 : ¬ pathExtends ["d"] ["s"] := by
    rintro ⟨r, hr⟩
    injection hr with ha _
    exact absurd ha (by decide)
  refine ⟨⟨by decide,
    C10_source_readonly.1 false ["s"] ["d"] (Node.dir [("f", Node.file [1])])
      (Node.dir []) (SyncAction.copyFile ["s", "f"] ["d", "f"]) (by decide)⟩,
    hnd1, hnd2, rfl, ?_⟩
  exact C10_source_readonly.2
    (Node.dir [("s", Node.dir [("f", Node.file [1])]), ("d", Node.dir [])])
    ["s"] ["d"] false _ _ hnd1 hnd2 rfl
